import Mathlib

/-!
Verification of the coverage-tour optimization engine of the lawn-mowing
repository (puzzle_tour_solver).  Every definition below is a shallow
embedding of a function of the Python sources (file and symbol named in the
doc comment); vertices are represented by their integer id (`Nat`), costs by
exact rationals, Python `None`/exceptions by `Option`.
-/

set_option autoImplicit false

namespace PuzzleTour

/-- Embeds `Coverage` of `mip/instance.py`: a local passage pattern at central
vertex `v`, entered/exited via `u` and `w`.  The constructor of the Python
class stores `u`/`w` in min/max order; `mkCoverage` performs that
normalisation.  Vertices are their integer ids (`Vertex.__eq__`, `__lt__` and
`__hash__` all delegate to `idx`). -/
structure Coverage where
  u : Nat
  v : Nat
  w : Nat
  full : Bool
  deriving DecidableEq, Repr

/-- Embeds `Coverage.__init__`: `self.u = min(u, w)`, `self.w = max(u, w)`. -/
def mkCoverage (u v w : Nat) (full : Bool) : Coverage :=
  ⟨min u w, v, max u w, full⟩

namespace Coverage

/-- Embeds `Coverage.is_u` (degenerate dead-end passage): `self.u == self.w`. -/
def is_u (c : Coverage) : Bool :=
  c.u == c.w

/-- Embeds `Coverage.other`: the endpoint other than `x`
(`self.w` if `x == self.u` else `self.u`). -/
def other (c : Coverage) (x : Nat) : Nat :=
  if x = c.u then c.w else c.u

/-- Embeds `Coverage.__contains__`: membership in the `(u, v, w)` triple. -/
def elemB (c : Coverage) (x : Nat) : Bool :=
  x == c.u || x == c.v || x == c.w

/-- Embeds `Coverage.are_connected`:
`self.v in uvw and self.v != uvw.v and uvw.v in self and uvw.v != self.v`. -/
def are_connected (c d : Coverage) : Bool :=
  d.elemB c.v && (c.v != d.v) && c.elemB d.v && (d.v != c.v)

end Coverage

/-- Embeds `is_in_line` of `mip/instance.py`: three coverages chain into a
walk segment. -/
def is_in_line (c0 c1 c2 : Coverage) : Bool :=
  if !(c0.are_connected c1) || !(c1.are_connected c2) then
    false
  else
    (c0.v == c1.u && c1.w == c2.v) || (c0.v == c1.w && c1.u == c2.v)

/-- Checks `is_in_line` on every three consecutive entries of a list; this is
the loop `all(is_in_line(cs[i-2], cs[i-1], cs[i]) for i in range(2, len(cs)))`
of `is_feasible_solution` applied to the already-extended list. -/
def consecutiveTriples : List Coverage → Bool
  | a :: b :: c :: rest => is_in_line a b c && consecutiveTriples (b :: c :: rest)
  | _ => true

/-- Embeds `is_feasible_solution` of `mip/instance.py`: lists shorter than 2
are infeasible; a 2-element list must be mutually connected and degenerate;
otherwise the first two elements are appended and every consecutive triple of
the extended list must be in line. -/
def is_feasible_solution (coverages : List Coverage) : Bool :=
  match coverages with
  | [] => false
  | [_] => false
  | [c0, c1] => c0.are_connected c1 && c0.is_u && c1.is_u
  | c0 :: c1 :: rest => consecutiveTriples ((c0 :: c1 :: rest) ++ [c0, c1])

/-- Cost registrations of a `CoverageGraph` (`self._costs`): an insertion
ordered association list from coverages to costs, as a Python dict. -/
abbrev CostMap := List (Coverage × ℚ)

/-- Dictionary lookup `self._costs[uvw]`, `none` modelling the `KeyError`. -/
def lookupCost : CostMap → Coverage → Option ℚ
  | [], _ => none
  | (k, q) :: rest, c => if k = c then some q else lookupCost rest c

/-- Embeds `CoverageGraph.cost` of `mip/instance.py`: an unregistered
degenerate non-full coverage costs `0.0`; any other coverage is looked up in
`self._costs`, an absent key raising `KeyError` (modelled as `none`). -/
def graphCost (costs : CostMap) (uvw : Coverage) : Option ℚ :=
  if uvw.is_u && !uvw.full then
    match lookupCost costs uvw with
    | none => some 0
    | some q => some q
  else
    lookupCost costs uvw

/-! Cycle reconstruction, `mip/coverages_to_cycle.py` (`SolutionConverter`).
The Python multiplicity dictionary is modelled as an insertion-ordered
association list `Coverage × Nat`; iteration over `coverage.items()` is the
scan of that list from the front.  The unbounded `while` loops take a fuel
argument that the top-level entry point instantiates large enough. -/

/-- Multiplicity dictionary of the solution converter. -/
abbrev CovDict := List (Coverage × Nat)

/-- Multiplicity of coverage `c` in the dictionary. -/
def countD (d : CovDict) (c : Coverage) : Nat :=
  (d.map (fun kx => if kx.1 = c then kx.2 else 0)).sum

/-- Total multiplicity stored in the dictionary. -/
def totalD (d : CovDict) : Nat :=
  (d.map (·.2)).sum

/-- Embeds `SolutionConverter._extract_coverage`: scan the dictionary in
order for the first entry with positive multiplicity, centred at `v`, with
endpoint `u`; pop it if the multiplicity is 1, else decrement in place.
`none` models the raised `KeyError("Could not find matching entry.")`. -/
def extractCoverage : CovDict → Nat → Nat → Option (Coverage × CovDict)
  | [], _, _ => none
  | (k, x) :: rest, u, v =>
    if 0 < x ∧ k.v = v ∧ (k.u = u ∨ k.w = u) then
      if x = 1 then some (k, rest) else some (k, (k, x - 1) :: rest)
    else
      (extractCoverage rest u v).map (fun cd => (cd.1, (k, x) :: cd.2))

/-- The `while (u, v) != start` loop of `SolutionConverter._extract_cycle`:
append the extracted coverage and advance `(u, v)` to
`(v, extracted.other(u))`.  Extraction failures inside the loop are
unprotected in the Python and propagate as `none`. -/
def extractCycleLoop (fuel : Nat) (d : CovDict) (su sv : Nat) (u v : Nat)
    (acc : List Coverage) : Option (List Coverage × CovDict) :=
  match fuel with
  | 0 => none
  | fuel + 1 =>
    if u = su ∧ v = sv then some (acc, d)
    else
      match extractCoverage d u v with
      | none => none
      | some (c, d1) => extractCycleLoop fuel d1 su sv v (c.other u) (acc ++ [c])

/-- Embeds `SolutionConverter._extract_cycle`: the first extraction is inside
`try/except KeyError` and a failure returns the empty cycle; the second
extraction and the loop extractions are unprotected; the final
`assert is_feasible_solution(cycle)` is the guard at the end. -/
def extractCycle (fuel : Nat) (d : CovDict) (u v : Nat) :
    Option (List Coverage × CovDict) :=
  match extractCoverage d u v with
  | none => some ([], d)
  | some (c1, d1) =>
    match extractCoverage d1 v (c1.other u) with
    | none => none
    | some (c2, d2) =>
      match extractCycleLoop fuel d2 u v (c1.other u) (c2.other v) [c1, c2] with
      | none => none
      | some (cyc, d3) =>
        if is_feasible_solution cyc then some (cyc, d3) else none

/-- Python list indexing with wrap-around for negative indices, as used by
`cycle[i - 1 % len(cycle)]` in `extract_cycle_from_dict`. -/
def pyGet (l : List Coverage) (k : Int) : Option Coverage :=
  if 0 ≤ k then l.get? k.toNat
  else l.get? (l.length - (-k).toNat)

/-- The splice loop of `SolutionConverter.extract_cycle_from_dict`:
`while i < len(cycle)`, look for a sub-cycle starting at
`(cycle[i - 1 % len(cycle)].v, cycle[i].v)`; insert it before position `i`
when found, otherwise advance `i`. -/
def spliceLoop (fuel : Nat) (cycle : List Coverage) (d : CovDict) (i : Nat) :
    Option (List Coverage × CovDict) :=
  match fuel with
  | 0 => none
  | fuel + 1 =>
    if i < cycle.length then
      match pyGet cycle ((i : Int) - (1 % (cycle.length : Int))),
          cycle.get? i with
      | some uc, some vc =>
        match extractCycle (totalD d + 1) d uc.v vc.v with
        | none => none
        | some (sub, d1) =>
          if sub.isEmpty then spliceLoop fuel cycle d1 (i + 1)
          else spliceLoop fuel (cycle.take i ++ sub ++ cycle.drop i) d1 i
      | _, _ => none
    else some (cycle, d)

/-- Embeds `SolutionConverter._random_used_arc`: the first entry with
positive multiplicity yields the arc `(uvw.u, uvw.v)`; `none` models the
raised `ValueError("No coverages")`. -/
def randomUsedArc : CovDict → Option (Nat × Nat)
  | [] => none
  | (k, x) :: rest => if 0 < x then some (k.u, k.v) else randomUsedArc rest

/-- Embeds `SolutionConverter.extract_cycle_from_dict`, returning the cycle
together with the (discarded by the Python) remaining dictionary.  The final
`assert is_feasible_solution(cycle)` is the guard at the end. -/
def extractCycleFromDict (d : CovDict) : Option (List Coverage × CovDict) :=
  match randomUsedArc d with
  | none => none
  | some (u, v) =>
    match extractCycle (totalD d + 1) d u v with
    | none => none
    | some (cyc, d1) =>
      match spliceLoop (cyc.length + 2 * totalD d1 + 1) cyc d1 0 with
      | none => none
      | some (out, d2) =>
        if is_feasible_solution out then some (out, d2) else none

/-- One step of `SolutionConverter.convert_from_list_to_dict`:
`sol[uvw] = sol.get(uvw, 0) + 1`.  A present key keeps its position (Python
dicts update in place), a new key is appended at the end. -/
def dictAddOne : CovDict → Coverage → CovDict
  | [], c => [(c, 1)]
  | (k, x) :: rest, c =>
    if k = c then (k, x + 1) :: rest else (k, x) :: dictAddOne rest c

/-- Embeds `SolutionConverter.convert_from_list_to_dict`. -/
def convertFromListToDict (coverages : List Coverage) : CovDict :=
  coverages.foldl dictAddOne []

/-- Embeds `coverages_to_cycle` of `mip/coverages_to_cycle.py`
(`convert_from_list_to_cycle` composed with the multiset conversion). -/
def coveragesToCycle (coverages : List Coverage) : Option (List Coverage) :=
  (extractCycleFromDict (convertFromListToDict coverages)).map (·.1)

/-! Exact solver driver, `mip/model.py`.  The Gurobi solver is the external
black box; its outcome enters as the triple (number of found solutions,
incumbent objective, best bound). -/

/-- Embeds the return logic of `Model.optimize` (`mip/model.py`): with at
least one incumbent it returns `(ObjVal, ObjBound)`, otherwise
`(None, ObjBound)`.  Python optionality is `Option`. -/
def modelOptimizeResult (solCount : Nat) (objVal objBound : ℚ) :
    Option ℚ × Option ℚ :=
  if 0 < solCount then (some objVal, some objBound) else (none, some objBound)

/-- Outcome of `LnsOptimizer.optimize_neighborhood` (`mip/lns.py`): either
returned early because the time limit was non-positive, or returned after the
`if ub is None` warning branch without extracting, or went on to
`mip.extract_solution()` and the acceptance test. -/
inductive LnsNbhdOutcome where
  | skippedTime : LnsNbhdOutcome
  | noUpperBound (lb ub : Option ℚ) : LnsNbhdOutcome
  | extracted (lb ub : Option ℚ) (accepted : Bool) : LnsNbhdOutcome
  deriving DecidableEq, Repr

/-- Embeds the control flow of `LnsOptimizer.optimize_neighborhood`:
`lb, ub = mip.optimize(timelimit)`; if `ub is None` it warns and returns
without extraction; otherwise it extracts the solution and accepts it when
its objective is strictly smaller.  The objective values of the extracted and
the current solution enter as parameters. -/
def optimizeNeighborhood (timelimit : ℚ) (mipResult : Option ℚ × Option ℚ)
    (extractedObj currentObj : ℚ) : LnsNbhdOutcome :=
  if timelimit ≤ 0 then .skippedTime
  else
    let lb := mipResult.1
    let ub := mipResult.2
    if ub = none then .noUpperBound lb ub
    else .extracted lb ub (decide (extractedObj < currentObj))

/-- Embeds the neighborhood-size update of `LnsOptimizer.optimize`
(`mip/lns.py`): `n = math.ceil(n * 1.25)` on a proved-optimal sub-solve and
`n = math.floor(n / 1.25)` otherwise.  The float literal `1.25` is exactly
`5/4`, and `n * 1.25` and `n / 1.25` stay within exact float range for all
reachable `n`, so exact rational arithmetic is faithful. -/
def lnsNUpdate (optimal : Bool) (n : ℤ) : ℤ :=
  if optimal then ⌈(n : ℚ) * (5 / 4)⌉ else ⌊(n : ℚ) / (5 / 4)⌋

/-- The proved-optimal test of `LnsOptimizer.optimize`:
`ub is not None and lb == ub`. -/
def lnsOptimal (lb ub : Option ℚ) : Bool :=
  decide (ub ≠ none ∧ lb = ub)

/-- Embeds the iteration loop of `LnsOptimizer.optimize`: each entry of
`steps` is one iteration's (timer expired?, `lb`, `ub`) data.  Returns the
final result (`True` = proved globally optimal) together with the trace of
the neighborhood size `n` at each loop head reached. -/
def lnsOptimizeLoop (numVertices : ℤ) (steps : List (Bool × Option ℚ × Option ℚ))
    (n : ℤ) : Bool × List ℤ :=
  match steps with
  | [] => (false, [n])
  | (outOfTime, lb, ub) :: rest =>
    if outOfTime then (false, [n])
    else if numVertices ≤ n ∧ lnsOptimal lb ub = true then (true, [n])
    else
      let next := lnsOptimizeLoop numVertices rest (lnsNUpdate (lnsOptimal lb ub) n)
      (next.1, n :: next.2)

/-- Embeds the control flow of `optimize` in `mip/__init__.py` after the
initial solution is available: local optimization, the first out-of-time
return with the trivial lower bound `0`, the LNS phase, the second
out-of-time return, and finally the exact MIP phase whose result is unpacked
as `ub, lb = model.optimize(...)`. -/
def optimizeDriver (obj : List Coverage → ℚ)
    (localOpt : List Coverage → List Coverage) (initialSol : List Coverage)
    (outOfTime1 : Bool) (lnsSol : List Coverage) (outOfTime2 : Bool)
    (mipResult : ℚ × ℚ) (mipSol : List Coverage) :
    ℚ × ℚ × List Coverage :=
  let sol1 := localOpt initialSol
  if outOfTime1 then (0, obj sol1, sol1)
  else
    let currentSol := localOpt lnsSol
    if outOfTime2 then (0, obj currentSol, currentSol)
    else
      let ub := mipResult.1
      let lb := mipResult.2
      (lb, ub, localOpt mipSol)

/-! Cutting planes, `mip/cuts.py`.  The connected components of the
used-edge graph and the reconstructed cycles are produced by the external
`networkx` library and by `VariableAssignment.cycles`; the separators' own
counting logic over them is embedded here. -/

/-- Embeds the per-component counting of `ConnectSeparateComponents.cut`: a
component holding some but not all mandatory vertices contributes one
`leaving >= 1` cut; a component holding no mandatory vertex contributes one
`_prohibit_component` cut; a component holding every mandatory vertex
contributes nothing. -/
def componentCutCount (mandatory : List Nat) (comp : List Nat) : Nat :=
  let hasMandatory := comp.any (fun v => mandatory.contains v)
  let missesMandatory := mandatory.any (fun v => !comp.contains v)
  if hasMandatory && missesMandatory then 1
  else if !hasMandatory then 1
  else 0

/-- Embeds the number of constraints added by
`ConnectSeparateComponents.cut`: zero when at most one component exists,
otherwise the sum of the per-component contributions. -/
def connectSeparateComponentsCut (mandatory : List Nat)
    (components : List (List Nat)) : Nat :=
  if components.length ≤ 1 then 0
  else (components.map (componentCutCount mandatory)).sum

/-- Embeds the per-cycle counting of `ConnectIntersectingComponents.cut`: a
cycle without a full coverage (`_get_mandatory_full_coverage` returns
`None`) contributes one `_prohibit_cycle` cut; a cycle whose number of full
coverages equals the number of mandatory vertices is skipped; any other
cycle contributes one leaving-coverages cut. -/
def cycleCutCount (numMandatory : Nat) (cycle : List Coverage) : Nat :=
  if cycle.all (fun uvw => !uvw.full) then 1
  else if (cycle.filter (fun uvw => uvw.full)).length = numMandatory then 0
  else 1

/-- Embeds the number of constraints added by
`ConnectIntersectingComponents.cut`: zero when exactly one cycle exists,
otherwise the sum of the per-cycle contributions. -/
def connectIntersectingComponentsCut (numMandatory : Nat)
    (cycles : List (List Coverage)) : Nat :=
  if cycles.length = 1 then 0
  else (cycles.map (cycleCutCount numMandatory)).sum

/-- Default coverage used for total cyclic indexing. -/
def defaultCov : Coverage := ⟨0, 0, 0, false⟩

/-- Cyclic (wrap-around) access into a solution list. -/
def cyclicGet (cs : List Coverage) (i : ℕ) : Coverage :=
  cs.getD (i % cs.length) defaultCov

/-- Modelled from the spec (section 3, Feasible solution): an ordered list of
coverages forming a single closed walk — consecutive entries including the
wrap-around pair are connected — in which each mandatory vertex appears with
exactly one full coverage overall; lists of length below 2 are infeasible,
and 2-element lists additionally require both coverages degenerate. -/
def specFeasibleSolution (mand : List Nat) (cs : List Coverage) : Prop :=
  2 ≤ cs.length ∧
  (cs.length = 2 → ∀ c ∈ cs, c.is_u = true) ∧
  (∀ i, i < cs.length →
    (cyclicGet cs i).are_connected (cyclicGet cs (i + 1)) = true) ∧
  (∀ v ∈ mand, (cs.filter (fun c => c.v == v && c.full)).length = 1)

instance (mand : List Nat) (cs : List Coverage) :
    Decidable (specFeasibleSolution mand cs) := by
  unfold specFeasibleSolution
  infer_instance

/-- The cyclic in-line condition: every three cyclically consecutive entries
chain consistently. -/
def inLineCyclic (cs : List Coverage) : Prop :=
  ∀ i, i < cs.length →
    is_in_line (cyclicGet cs i) (cyclicGet cs (i + 1)) (cyclicGet cs (i + 2)) = true

instance (cs : List Coverage) : Decidable (inLineCyclic cs) := by
  unfold inLineCyclic
  infer_instance


/-- All cyclic rotations of a list. -/
def rotationsOf (l : List Coverage) : List (List Coverage) :=
  (List.range l.length).map (fun k => l.drop k ++ l.take k)

/-- Whether one list is a cyclic rotation of the other or of its reversal. -/
def isRotationOrReflection (s r : List Coverage) : Bool :=
  (rotationsOf s).contains r || (rotationsOf s.reverse).contains r


/-- Embeds `LocalOptimizer.relative_cost` of `mip/local_optimization.py`:
servicing cost minus transit cost of the passage `(u, v, w)`. -/
def relative_cost (cost : Coverage → ℚ) (u v w : Nat) : ℚ :=
  cost (mkCoverage u v w true) - cost (mkCoverage u v w false)

/-- The scanning state of Python `min(range(len(...)), key=...)`: keep the
first index attaining the strictly smallest key. -/
def argminAux (i bestI : Nat) (bestV : ℚ) : List ℚ → Nat
  | [] => bestI
  | x :: xs => if x < bestV then argminAux (i + 1) i x xs
               else argminAux (i + 1) bestI bestV xs

/-- Embeds `min(range(len(l)), key=lambda i: l[i])`: first index of the
minimum (raises on an empty list; callers guard). -/
def argminList : List ℚ → Nat
  | [] => 0
  | x :: xs => argminAux 1 0 x xs

/-- The comprehension
`[Coverage(uvw.u, uvw.v, uvw.w, full=(i == best)) for i, uvw in enumerate(...)]`
of `LocalOptimizer.optimize_tile`, with `i` starting at the given index. -/
def assignFullFrom (i best : Nat) : List Coverage → List Coverage
  | [] => []
  | c :: rest => mkCoverage c.u c.v c.w (i == best) :: assignFullFrom (i + 1) best rest

/-- Embeds `LocalOptimizer.optimize_tile`: all coverages must be centred at
the tile (else `ValueError`); a non-mandatory tile gets all-transit copies; a
mandatory tile gets `full=true` exactly on the first index minimising the
relative cost (Python `min` raises on an empty group, modelled as `none`). -/
def optimizeTile (mand : Nat → Bool) (cost : Coverage → ℚ) (tile : Nat)
    (coverages : List Coverage) : Option (List Coverage) :=
  if ¬ (coverages.all (fun uvw => uvw.v == tile)) then none
  else if ¬ (mand tile = true) then
    some (coverages.map (fun uvw => mkCoverage uvw.u uvw.v uvw.w false))
  else
    match coverages with
    | [] => none
    | c0 :: crest =>
      some (assignFullFrom 0
        (argminList ((c0 :: crest).map
          (fun uvw => relative_cost cost uvw.u uvw.v uvw.w)))
        (c0 :: crest))

/-- One step of the `defaultdict(list)` grouping of `LocalOptimizer.__call__`:
append the coverage to its central vertex's group, creating the key at the
end on first sight, as a Python dict does. -/
def addToGroup : List (Nat × List Coverage) → Coverage → List (Nat × List Coverage)
  | [], c => [(c.v, [c])]
  | (v, g) :: rest, c =>
    if c.v = v then (v, g ++ [c]) :: rest else (v, g) :: addToGroup rest c

/-- The grouping loop `for uvw in solution: coverages_per_tile[uvw.v].append(uvw)`. -/
def groupByTile (cs : List Coverage) : List (Nat × List Coverage) :=
  cs.foldl addToGroup []

/-- The concatenation `sum((optimize_tile(graph, v, covs) for ...), start=[])`
over the grouped tiles, in dictionary order. -/
def optimizeTiles (mand : Nat → Bool) (cost : Coverage → ℚ) :
    List (Nat × List Coverage) → Option (List Coverage)
  | [] => some []
  | p :: rest =>
    match optimizeTile mand cost p.1 p.2 with
    | none => none
    | some out =>
      match optimizeTiles mand cost rest with
      | none => none
      | some outs => some (out ++ outs)

/-- Embeds `LocalOptimizer.__call__`: group by central vertex, re-optimize
each tile, concatenate, and re-stitch with `coverages_to_cycle`. -/
def localOptimizer (mand : Nat → Bool) (cost : Coverage → ℚ)
    (solution : List Coverage) : Option (List Coverage) :=
  match optimizeTiles mand cost (groupByTile solution) with
  | none => none
  | some improved => coveragesToCycle improved


/-- Embeds the sliding-window loop of `compute_heuristic_solution` in
`mip/heuristic.py` (lines 98-110): over each window `(u, v, w)` of three
consecutive tour vertices it asserts that the window is non-degenerate,
marks `v` covered if `v` is mandatory and not yet covered, and emits the
coverage `Coverage(u, v, w, full)`; the `covered` set is threaded through
as a list. Failed asserts surface as `none`. -/
def windowLoop (mand : Nat → Bool) (covered : List Nat) : List Nat → Option (List Coverage)
  | u :: v :: w :: rest =>
    if u = v ∨ v = w then none
    else
      match windowLoop mand
          (if mand v && !(covered.contains v) then v :: covered else covered)
          (v :: w :: rest) with
      | none => none
      | some sol =>
        some (mkCoverage u v w (mand v && !(covered.contains v)) :: sol)
  | _ => some []

/-- Embeds `compute_heuristic_solution` of `mip/heuristic.py` (lines 82-117)
around its geometric oracles: the initial assert demands at least two
mandatory vertices; the threaded closed tour produced by nearest-neighbour,
2-opt and shortest-path expansion enters as the parameter `threadedTour`;
the tour is extended by its second vertex (`tour + tour[1:2]`), windowed by
`windowLoop`, and the final `assert instance.is_feasible_solution(solution)`
is the trailing feasibility check. Any failed assert surfaces as `none`. -/
def computeHeuristicSolution (mandatoryVertices : List Nat) (mand : Nat → Bool)
    (threadedTour : List Nat) : Option (List Coverage) :=
  if mandatoryVertices.length < 2 then none
  else
    match threadedTour with
    | v0 :: v1 :: rest =>
      match windowLoop mand [] ((v0 :: v1 :: rest) ++ [v1]) with
      | none => none
      | some sol => if is_feasible_solution sol then some sol else none
    | _ => none


/-! Helper lemmas. -/

/-- The connectivity test of `Coverage.are_connected` is symmetric. -/
theorem are_connected_symm (c d : Coverage) : c.are_connected d = d.are_connected c := by
  rw [Bool.eq_iff_iff]
  simp only [Coverage.are_connected, Bool.and_eq_true]
  tauto

/-- Closed integer form of the shrink update: `floor(n / 1.25) = 4n div 5`
(Euclidean division). -/
theorem lnsNUpdate_false_eq (m : ℤ) : lnsNUpdate false m = 4 * m / 5 := by
  have h : (m : ℚ) / (5 / 4) = ((4 * m : ℤ) : ℚ) / ((5 : ℕ) : ℚ) := by
    push_cast; ring
  simp only [lnsNUpdate, Bool.false_eq_true, if_false, h,
    Rat.floor_intCast_div_natCast]
  norm_num

/-- Closed integer form of the grow update:
`ceil(n * 1.25) = -((-5n) div 4)`. -/
theorem lnsNUpdate_true_eq (m : ℤ) : lnsNUpdate true m = -(-(5 * m) / 4) := by
  have h : (m : ℚ) * (5 / 4) = -(((-(5 * m) : ℤ) : ℚ) / ((4 : ℕ) : ℚ)) := by
    push_cast; ring
  simp only [lnsNUpdate, if_true, h, Int.ceil_neg, Rat.floor_intCast_div_natCast]
  norm_num

/-- The `n`-trace of the LNS loop always starts with the initial size. -/
theorem lnsOptimizeLoop_trace_head (numV : ℤ)
    (steps : List (Bool × Option ℚ × Option ℚ)) (n : ℤ) :
    (lnsOptimizeLoop numV steps n).2.head? = some n := by
  cases steps with
  | nil => rfl
  | cons s rest =>
    obtain ⟨ot, lb, ub⟩ := s
    simp only [lnsOptimizeLoop]
    split
    · rfl
    · split <;> rfl

/-! Claim theorems. -/

/-- C1: on a solver run with no incumbent, `Model.optimize` does return
`(None, bound)`; but `LnsOptimizer.optimize_neighborhood` unpacks that pair
as `lb, ub`, so its `if ub is None` guard sees the always-present bound and
does NOT take the skip branch: it goes on to extract a solution that does
not exist.  This theorem evaluates the embedded control flow at the failing
input (`SolCount = 0`, `ObjBound = 5`, time limit 1). -/
theorem lns_neighborhood_ignores_missing_incumbent :
    modelOptimizeResult 0 0 5 = (none, some 5) ∧
    optimizeNeighborhood 1 (modelOptimizeResult 0 0 5) 0 0 =
      LnsNbhdOutcome.extracted none (some 5) false := by
  exact ⟨rfl, rfl⟩

/-- C3: `is_feasible_solution` returns `false` on every list shorter than 2,
and on a 2-element list it returns `true` exactly when both coverages are
degenerate (`u == w`) and mutually connected. -/
theorem is_feasible_solution_small_lists (cs : List Coverage) (c0 c1 : Coverage) :
    (cs.length < 2 → is_feasible_solution cs = false) ∧
    (is_feasible_solution [c0, c1] = true ↔
      c0.is_u = true ∧ c1.is_u = true ∧ c0.are_connected c1 = true ∧
        c1.are_connected c0 = true) := by
  constructor
  · intro h
    match cs with
    | [] => rfl
    | [_] => rfl
    | _ :: _ :: _ =>
      exact absurd h (by simp)
  · show (c0.are_connected c1 && c0.is_u && c1.is_u) = true ↔ _
    simp only [Bool.and_eq_true]
    constructor
    · rintro ⟨⟨hc, hu0⟩, hu1⟩
      refine ⟨hu0, hu1, hc, ?_⟩
      rw [are_connected_symm]; exact hc
    · rintro ⟨hu0, hu1, hc, -⟩
      exact ⟨⟨hc, hu0⟩, hu1⟩

/-- C3 witness: the empty list is rejected and a concrete pair of mutually
connected degenerate coverages is accepted. -/
theorem is_feasible_solution_small_lists_witness :
    is_feasible_solution ([] : List Coverage) = false ∧
    is_feasible_solution [⟨1, 0, 1, false⟩, ⟨0, 1, 0, false⟩] = true := by
  refine ⟨(is_feasible_solution_small_lists [] ⟨1, 0, 1, false⟩ ⟨0, 1, 0, false⟩).1
      (by decide), ?_⟩
  exact (is_feasible_solution_small_lists [] ⟨1, 0, 1, false⟩ ⟨0, 1, 0, false⟩).2.mpr
    (by decide)

/-- C4 counterexample: seven consecutive non-optimal iterations starting
from the initial neighborhood size 10 drive `n` through 10, 8, 6, 4, 3, 2, 1
down to 0, so the size does drop below 1 (there is no clamping in
`LnsOptimizer.optimize`). -/
theorem lns_size_reaches_zero :
    (lnsOptimizeLoop 100 (List.replicate 7 (false, none, none)) 10).2 =
      [10, 8, 6, 4, 3, 2, 1, 0] := by
  simp only [List.replicate, lnsOptimizeLoop, lnsOptimal]
  norm_num [lnsNUpdate_false_eq]

/-- C4 (amended): in every LNS iteration the neighborhood size follows
`n := ceil(n * 1.25)` when the sub-solve proved optimal
(`ub is not None and lb == ub`) and `n := floor(n / 1.25)` otherwise —
equivalently `(5n+3) div 4` resp. `4n div 5` for nonnegative `n` — with no
lower clamp.  The trace of sizes produced by `LnsOptimizer.optimize` obeys
exactly this recurrence. -/
theorem lns_size_update_rule (numV : ℤ)
    (steps : List (Bool × Option ℚ × Option ℚ)) (n : ℤ) :
    (lnsOptimizeLoop numV steps n).2.head? = some n ∧
    (∀ i : ℕ, i + 1 < (lnsOptimizeLoop numV steps n).2.length →
      ∃ ot : Bool, ∃ lb ub : Option ℚ, steps[i]? = some (ot, lb, ub) ∧
        (lnsOptimizeLoop numV steps n).2[i + 1]? =
          ((lnsOptimizeLoop numV steps n).2[i]?).map
            (lnsNUpdate (lnsOptimal lb ub))) ∧
    (∀ m : ℤ, 0 ≤ m →
      lnsNUpdate true m = (5 * m + 3) / 4 ∧ lnsNUpdate false m = 4 * m / 5) := by
  refine ⟨lnsOptimizeLoop_trace_head numV steps n, ?_, ?_⟩
  · induction steps generalizing n with
    | nil =>
      intro i h
      simp [lnsOptimizeLoop] at h
    | cons s rest ih =>
      obtain ⟨ot, lb, ub⟩ := s
      intro i h
      by_cases hot : ot = true
      · subst hot
        simp [lnsOptimizeLoop] at h
      · replace hot : ot = false := by
          cases ot
          · rfl
          · exact absurd rfl hot
        subst hot
        by_cases hterm : numV ≤ n ∧ lnsOptimal lb ub = true
        · simp [lnsOptimizeLoop, if_pos hterm] at h
        · have hexp : (lnsOptimizeLoop numV ((false, lb, ub) :: rest) n).2 =
              n :: (lnsOptimizeLoop numV rest (lnsNUpdate (lnsOptimal lb ub) n)).2 := by
            simp [lnsOptimizeLoop, if_neg hterm]
          rw [hexp] at h ⊢
          match i with
          | 0 =>
            refine ⟨false, lb, ub, by simp, ?_⟩
            have h0 := lnsOptimizeLoop_trace_head numV rest
              (lnsNUpdate (lnsOptimal lb ub) n)
            rw [List.head?_eq_getElem?] at h0
            simp only [List.getElem?_cons_succ, List.getElem?_cons_zero, h0]
            rfl
          | i + 1 =>
            have hlen : i + 1 <
                (lnsOptimizeLoop numV rest (lnsNUpdate (lnsOptimal lb ub) n)).2.length := by
              simpa using h
            obtain ⟨ot2, lb2, ub2, hstep, hrec⟩ :=
              ih (lnsNUpdate (lnsOptimal lb ub) n) i hlen
            refine ⟨ot2, lb2, ub2, by simpa using hstep, ?_⟩
            simpa using hrec
  · intro m hm
    constructor
    · rw [lnsNUpdate_true_eq]
      omega
    · exact lnsNUpdate_false_eq m

/-- C4 witness: the amended update rule evaluated at `n = 1`: a grow step
yields 2 and a shrink step yields 0. -/
theorem lns_size_update_rule_witness :
    lnsNUpdate true 1 = 2 ∧ lnsNUpdate false 1 = 0 := by
  have h := (lns_size_update_rule 100 [] 0).2.2 1 (by norm_num)
  constructor
  · rw [h.1]
    decide
  · rw [h.2]
    decide

/-- C5: with at least two connected components of the used-edge graph
(components of a graph are pairwise disjoint), `ConnectSeparateComponents.cut`
adds at least one constraint; and with at least two reconstructed cycles,
given that the cycles together hold at most as many full coverages as there
are mandatory vertices (the MIP selects exactly one full coverage per
mandatory vertex and the cycles partition the selection),
`ConnectIntersectingComponents.cut` adds at least one constraint.  Hence the
`assert n > 0` statements of both separators never fire. -/
theorem separators_always_add_cut
    (mandatory : List Nat) (c1 c2 : List Nat) (crest : List (List Nat))
    (hdisj : ∀ x ∈ c1, x ∉ c2)
    (numMandatory : ℕ) (y1 y2 : List Coverage) (yrest : List (List Coverage))
    (hfull : ((y1 :: y2 :: yrest).map
        (fun cy => (cy.filter (fun uvw => uvw.full)).length)).sum ≤ numMandatory) :
    0 < connectSeparateComponentsCut mandatory (c1 :: c2 :: crest) ∧
    0 < connectIntersectingComponentsCut numMandatory (y1 :: y2 :: yrest) := by
  constructor
  · have hlen : ¬ ((c1 :: c2 :: crest).length ≤ 1) := by simp
    rw [connectSeparateComponentsCut, if_neg hlen]
    simp only [List.map_cons, List.sum_cons]
    have key : 0 < componentCutCount mandatory c1 + componentCutCount mandatory c2 := by
      by_cases h1 : componentCutCount mandatory c1 = 0
      · -- the first component must hold every mandatory vertex
        simp only [componentCutCount] at h1
        simp at h1
        by_cases hP : (∃ x ∈ c1, x ∈ mandatory) ∧ ∃ x ∈ mandatory, x ∉ c1
        · rw [if_pos hP] at h1
          exact absurd h1 one_ne_zero
        · rw [if_neg hP] at h1
          by_cases hQ : ∀ x ∈ c1, x ∉ mandatory
          · rw [if_pos hQ] at h1
            exact absurd h1 one_ne_zero
          · push_neg at hQ hP
            obtain ⟨v, hv1, hvm⟩ := hQ
            have hvc2 : v ∉ c2 := hdisj v hv1
            -- so the second component misses mandatory vertex v and cuts
            have h2pos : 0 < componentCutCount mandatory c2 := by
              simp only [componentCutCount]
              simp
              by_cases hhas2 : ∃ x ∈ c2, x ∈ mandatory
              · rw [if_pos ⟨hhas2, v, hvm, hvc2⟩]
                norm_num
              · rw [if_neg (fun hand => hhas2 hand.1)]
                push_neg at hhas2
                rw [if_pos hhas2]
                norm_num
            omega
      · omega
    omega
  · have hlen : ¬ ((y1 :: y2 :: yrest).length = 1) := by simp
    rw [connectIntersectingComponentsCut, if_neg hlen]
    simp only [List.map_cons, List.sum_cons]
    have hchar : ∀ y : List Coverage, cycleCutCount numMandatory y = 0 →
        0 < (y.filter (fun uvw => uvw.full)).length ∧
          (y.filter (fun uvw => uvw.full)).length = numMandatory := by
      intro y hy
      rw [cycleCutCount] at hy
      cases hA : (y.all fun uvw => !uvw.full) with
      | true => simp [hA] at hy
      | false =>
        rw [hA] at hy
        simp only [Bool.false_eq_true, if_false] at hy
        by_cases hq : (y.filter (fun uvw => uvw.full)).length = numMandatory
        · refine ⟨?_, hq⟩
          have hex : ∃ c ∈ y, c.full = true := by
            by_contra hno
            push_neg at hno
            rw [← Bool.not_eq_true, List.all_eq_true] at hA
            exact hA (fun c hc => by simp [hno c hc])
          obtain ⟨c, hc, hcf⟩ := hex
          have hmemf : c ∈ y.filter (fun uvw => uvw.full) :=
            List.mem_filter.mpr ⟨hc, by simp [hcf]⟩
          exact List.length_pos.mpr (fun he => by simp [he] at hmemf)
        · rw [if_neg hq] at hy
          exact absurd hy one_ne_zero
    by_cases h1 : cycleCutCount numMandatory y1 = 0
    · by_cases h2 : cycleCutCount numMandatory y2 = 0
      · obtain ⟨hp1, he1⟩ := hchar y1 h1
        obtain ⟨hp2, he2⟩ := hchar y2 h2
        simp only [List.map_cons, List.sum_cons] at hfull
        omega
      · omega
    · omega

/-- C5 witness: two singleton components with mandatory vertex 0 in the
first, and two singleton cycles of which the first covers the single
mandatory vertex. -/
theorem separators_always_add_cut_witness :
    0 < connectSeparateComponentsCut [0] [[0], [1]] ∧
    0 < connectIntersectingComponentsCut 1
      [[⟨0, 1, 0, true⟩], [⟨1, 2, 1, false⟩]] := by
  exact separators_always_add_cut [0] [0] [1] [] (by decide) 1
    [⟨0, 1, 0, true⟩] [⟨1, 2, 1, false⟩] [] (by decide)

/-- C8: `CoverageGraph.cost` returns 0 for an unregistered degenerate
non-full coverage, the registered cost whenever one is registered, and fails
with the `KeyError` (unknown coverage) for every other unregistered
coverage. -/
theorem graph_cost_cases (m : CostMap) (c : Coverage) :
    (c.is_u = true → c.full = false → lookupCost m c = none →
      graphCost m c = some 0) ∧
    (∀ q : ℚ, lookupCost m c = some q → graphCost m c = some q) ∧
    (lookupCost m c = none → (c.is_u = false ∨ c.full = true) →
      graphCost m c = none) := by
  refine ⟨?_, ?_, ?_⟩
  · intro h1 h2 h3
    rw [graphCost, h3]
    simp [h1, h2]
  · intro q hq
    rw [graphCost, hq]
    split <;> rfl
  · intro h1 h2
    rw [graphCost, h1]
    have hcond : ¬ (c.is_u && !c.full) = true := by
      rcases h2 with h | h <;> simp [h]
    rw [if_neg hcond]

/-- C8 witness: evaluated on a one-entry cost map at an unregistered
degenerate non-full coverage, at the registered coverage, and at an
unregistered full coverage. -/
theorem graph_cost_cases_witness :
    graphCost [(⟨0, 1, 2, true⟩, 5)] ⟨1, 0, 1, false⟩ = some 0 ∧
    graphCost [(⟨0, 1, 2, true⟩, 5)] ⟨0, 1, 2, true⟩ = some 5 ∧
    graphCost [(⟨0, 1, 2, true⟩, 5)] ⟨0, 1, 2, false⟩ = none := by
  refine ⟨(graph_cost_cases [(⟨0, 1, 2, true⟩, 5)] ⟨1, 0, 1, false⟩).1
      rfl rfl rfl, ?_, ?_⟩
  · exact (graph_cost_cases [(⟨0, 1, 2, true⟩, 5)] ⟨0, 1, 2, true⟩).2.1 5
      (by simp [lookupCost])
  · exact (graph_cost_cases [(⟨0, 1, 2, true⟩, 5)] ⟨0, 1, 2, false⟩).2.2
      (by simp [lookupCost]) (Or.inl rfl)

/-- C9: when the overall time budget expires after the LNS phase but before
the exact MIP phase, the public `optimize` returns the trivial lower bound 0
together with the objective value and the locally optimized LNS solution —
not a solver-derived lower bound. -/
theorem optimize_trivial_bound_on_late_timeout (obj : List Coverage → ℚ)
    (localOpt : List Coverage → List Coverage)
    (initialSol lnsSol mipSol : List Coverage) (mipResult : ℚ × ℚ) :
    optimizeDriver obj localOpt initialSol false lnsSol true mipResult mipSol =
      (0, obj (localOpt lnsSol), localOpt lnsSol) := by
  simp [optimizeDriver]

/-! Claim C2: comparison of `is_feasible_solution` with the data model's
definition of a feasible solution. -/

/-- C2 counterexample: with vertex 0 mandatory, the 2-element list of
mutually connected degenerate non-full coverages is accepted by
`is_feasible_solution` although vertex 0 has no full coverage, so the
claimed equivalence with the data model's feasibility (which demands exactly
one full coverage per mandatory vertex) fails: the function checks only the
closed-walk structure. -/
theorem is_feasible_solution_ignores_mandatory :
    is_feasible_solution [⟨1, 0, 1, false⟩, ⟨0, 1, 0, false⟩] = true ∧
    ¬ specFeasibleSolution [0] [⟨1, 0, 1, false⟩, ⟨0, 1, 0, false⟩] := by
  constructor
  · decide
  · decide

/-- The triple scan of `is_feasible_solution` in index form. -/
theorem consecutiveTriples_iff (l : List Coverage) :
    consecutiveTriples l = true ↔
      ∀ i, i + 2 < l.length →
        is_in_line (l.getD i defaultCov) (l.getD (i + 1) defaultCov)
          (l.getD (i + 2) defaultCov) = true := by
  induction l with
  | nil => simp [consecutiveTriples]
  | cons a t ih =>
    match t with
    | [] =>
      simp [consecutiveTriples]
    | [b] =>
      simp [consecutiveTriples]
    | b :: c :: rest =>
      show (is_in_line a b c && consecutiveTriples (b :: c :: rest)) = true ↔ _
      rw [Bool.and_eq_true, ih]
      constructor
      · rintro ⟨h0, hrest⟩ i hi
        match i with
        | 0 => simpa using h0
        | i + 1 =>
          have := hrest i (by simpa using hi)
          simpa using this
      · intro h
        refine ⟨by simpa using h 0 (by simp), ?_⟩
        intro i hi
        have := h (i + 1) (by simpa using hi)
        simpa using this

/-- Positions of the list extended by its first two elements agree with
cyclic access into the original list. -/
theorem extended_getD (c0 c1 : Coverage) (rest : List Coverage) (i : ℕ)
    (h : i < (c0 :: c1 :: rest).length + 2) :
    ((c0 :: c1 :: rest) ++ [c0, c1]).getD i defaultCov =
      cyclicGet (c0 :: c1 :: rest) i := by
  have hn : 2 ≤ (c0 :: c1 :: rest).length := by simp
  by_cases h1 : i < (c0 :: c1 :: rest).length
  · rw [List.getD_append _ _ _ _ h1, cyclicGet, Nat.mod_eq_of_lt h1]
  · push_neg at h1
    rcases (by omega : i = (c0 :: c1 :: rest).length ∨
        i = (c0 :: c1 :: rest).length + 1) with h2 | h2
    · subst h2
      rw [List.getD_append_right _ _ _ _ (le_refl _), cyclicGet, Nat.mod_self]
      simp
    · subst h2
      rw [List.getD_append_right _ _ _ _ (by omega), cyclicGet,
        Nat.add_mod_left, Nat.mod_eq_of_lt (by omega)]
      simp

/-- C2 (amended): `is_feasible_solution` returns true iff the list forms a
single closed walk in the in-line sense: it has length at least 2; a
2-element list must be a mutually connected pair of degenerate coverages;
a longer list must chain consistently at every three cyclically consecutive
entries (wrap-around included).  The mandatory-vertex condition of the data
model is not checked by the function. -/
theorem is_feasible_solution_iff_closed_walk (cs : List Coverage) :
    is_feasible_solution cs = true ↔
      (2 ≤ cs.length ∧
       (cs.length = 2 →
         (cyclicGet cs 0).are_connected (cyclicGet cs 1) = true ∧
           ∀ c ∈ cs, c.is_u = true) ∧
       (3 ≤ cs.length → inLineCyclic cs)) := by
  match cs with
  | [] => simp [is_feasible_solution]
  | [c] => simp [is_feasible_solution]
  | [c0, c1] =>
    show (c0.are_connected c1 && c0.is_u && c1.is_u) = true ↔ _
    simp only [Bool.and_eq_true]
    constructor
    · rintro ⟨⟨hc, h0⟩, h1⟩
      refine ⟨by simp, fun _ => ⟨by simpa [cyclicGet] using hc, ?_⟩, by simp⟩
      intro c hc2
      rcases (by simpa using hc2 : c = c0 ∨ c = c1) with h | h <;> subst h <;>
        assumption
    · rintro ⟨-, hmain, -⟩
      obtain ⟨hconn, hisu⟩ := hmain (by simp)
      refine ⟨⟨by simpa [cyclicGet] using hconn, ?_⟩, ?_⟩
      · exact hisu c0 (by simp)
      · exact hisu c1 (by simp)
  | c0 :: c1 :: c2 :: rest =>
    show consecutiveTriples ((c0 :: c1 :: c2 :: rest) ++ [c0, c1]) = true ↔ _
    rw [consecutiveTriples_iff]
    have hlen : ((c0 :: c1 :: c2 :: rest) ++ [c0, c1]).length =
        (c0 :: c1 :: c2 :: rest).length + 2 := by simp
    constructor
    · intro h
      refine ⟨by simp, by simp, fun _ => ?_⟩
      intro i hi
      have := h i (by omega)
      rwa [extended_getD _ _ _ i (by omega), extended_getD _ _ _ (i + 1) (by omega),
        extended_getD _ _ _ (i + 2) (by omega)] at this
    · rintro ⟨-, -, h3⟩
      intro i hi
      rw [hlen] at hi
      rw [extended_getD _ _ _ i (by omega), extended_getD _ _ _ (i + 1) (by omega),
        extended_getD _ _ _ (i + 2) (by omega)]
      exact h3 (by simp) i (by omega)

/-- C2 witness: the amended equivalence applied to a concrete accepted
2-element walk. -/
theorem is_feasible_solution_iff_closed_walk_witness :
    is_feasible_solution [⟨1, 0, 1, true⟩, ⟨0, 1, 0, false⟩] = true :=
  (is_feasible_solution_iff_closed_walk [⟨1, 0, 1, true⟩, ⟨0, 1, 0, false⟩]).mpr
    (by decide)

/-! Claim C6: cycle reconstruction versus the flatten-to-multiset inverse
property. -/

/-- Adding one occurrence to the dictionary raises exactly that count. -/
theorem countD_dictAddOne (d : CovDict) (c e : Coverage) :
    countD (dictAddOne d c) e = countD d e + (if c = e then 1 else 0) := by
  induction d with
  | nil =>
    simp only [dictAddOne, countD, List.map_cons, List.map_nil, List.sum_cons,
      List.sum_nil]
    split <;> omega
  | cons kx rest ih =>
    obtain ⟨k, x⟩ := kx
    rw [dictAddOne]
    by_cases hk : k = c
    · subst hk
      simp only [if_pos rfl, countD, List.map_cons, List.sum_cons]
      by_cases he : k = e <;> simp [he] <;> omega
    · rw [if_neg hk]
      simp only [countD, List.map_cons, List.sum_cons] at ih ⊢
      rw [ih]
      omega

/-- Folding a list into the dictionary accumulates its counts. -/
theorem countD_foldl_dictAddOne (cs : List Coverage) (d : CovDict) (e : Coverage) :
    countD (cs.foldl dictAddOne d) e = countD d e + cs.count e := by
  induction cs generalizing d with
  | nil => simp
  | cons c cs ih =>
    rw [List.foldl_cons, ih, countD_dictAddOne, List.count_cons]
    by_cases h : c = e <;> simp [h] <;> omega

/-- The multiplicity dictionary of a list carries exactly its counts. -/
theorem countD_convert (cs : List Coverage) (e : Coverage) :
    countD (convertFromListToDict cs) e = cs.count e := by
  rw [convertFromListToDict, countD_foldl_dictAddOne]
  simp [countD]

/-- A successful extraction removes exactly one occurrence of the returned coverage. -/
theorem extractCoverage_count (d : CovDict) (u v : Nat) (c : Coverage)
    (d2 : CovDict) (h : extractCoverage d u v = some (c, d2)) (e : Coverage) :
    countD d e = countD d2 e + (if c = e then 1 else 0) := by
  induction d generalizing d2 with
  | nil => simp [extractCoverage] at h
  | cons kx rest ih =>
    obtain ⟨k, x⟩ := kx
    rw [extractCoverage] at h
    by_cases hc : 0 < x ∧ k.v = v ∧ (k.u = u ∨ k.w = u)
    · rw [if_pos hc] at h
      by_cases hx : x = 1
      · rw [if_pos hx] at h
        obtain ⟨hkc, hrest⟩ : k = c ∧ rest = d2 := by
          constructor <;> [exact congrArg Prod.fst (Option.some.inj h);
            exact congrArg Prod.snd (Option.some.inj h)]
        subst hkc
        subst hrest
        subst hx
        simp only [countD, List.map_cons, List.sum_cons]
        split <;> simp_all <;> omega
      · rw [if_neg hx] at h
        obtain ⟨hkc, hrest⟩ : k = c ∧ (k, x - 1) :: rest = d2 := by
          constructor <;> [exact congrArg Prod.fst (Option.some.inj h);
            exact congrArg Prod.snd (Option.some.inj h)]
        subst hkc
        subst hrest
        simp only [countD, List.map_cons, List.sum_cons]
        have hx0 : 0 < x := hc.1
        split <;> simp_all <;> omega
    · rw [if_neg hc] at h
      obtain ⟨⟨c1, d1⟩, hc1, heq⟩ := Option.map_eq_some'.mp h
      obtain ⟨he1, he2⟩ : c1 = c ∧ (k, x) :: d1 = d2 := by
        constructor <;> [exact congrArg Prod.fst heq; exact congrArg Prod.snd heq]
      subst he1
      subst he2
      simp only [countD, List.map_cons, List.sum_cons]
      have := ih d1 hc1
      simp only [countD] at this
      omega



/-- The cycle walk loop moves multiplicities from the dictionary into the accumulated cycle one by one. -/
theorem extractCycleLoop_count (fuel : Nat) (d : CovDict) (su sv : Nat)
    (u v : Nat) (acc out : List Coverage) (d2 : CovDict)
    (h : extractCycleLoop fuel d su sv u v acc = some (out, d2)) (e : Coverage) :
    countD d e + acc.count e = countD d2 e + out.count e := by
  induction fuel generalizing d u v acc with
  | zero => simp [extractCycleLoop] at h
  | succ fuel ih =>
    rw [extractCycleLoop] at h
    by_cases hs : u = su ∧ v = sv
    · rw [if_pos hs] at h
      obtain ⟨h1, h2⟩ : acc = out ∧ d = d2 := by
        constructor <;> [exact congrArg Prod.fst (Option.some.inj h);
          exact congrArg Prod.snd (Option.some.inj h)]
      subst h1
      subst h2
      rfl
    · rw [if_neg hs] at h
      cases hex : extractCoverage d u v with
      | none =>
        rw [hex] at h
        exact absurd h (by simp)
      | some cd =>
        obtain ⟨c, d1⟩ := cd
        rw [hex] at h
        have h1 := extractCoverage_count d u v c d1 hex e
        have h2 := ih d1 v (c.other u) (acc ++ [c]) h
        rw [List.count_append] at h2
        simp only [List.count_cons, List.count_nil, beq_iff_eq] at h2
        by_cases hce : c = e <;> simp [hce] at h1 h2 ⊢ <;> omega

/-- A successfully extracted cycle accounts exactly for the multiplicities removed from the dictionary. -/
theorem extractCycle_count (fuel : Nat) (d : CovDict) (u v : Nat)
    (out : List Coverage) (d2 : CovDict)
    (h : extractCycle fuel d u v = some (out, d2)) (e : Coverage) :
    countD d e = countD d2 e + out.count e := by
  rw [extractCycle] at h
  split at h
  case h_1 hex1 =>
    obtain ⟨h1, h2⟩ : ([] : List Coverage) = out ∧ d = d2 := by
      constructor <;> [exact congrArg Prod.fst (Option.some.inj h);
        exact congrArg Prod.snd (Option.some.inj h)]
    subst h1
    subst h2
    rfl
  case h_2 c1 d1 hex1 =>
    split at h
    case h_1 => exact absurd h (by simp)
    case h_2 c2 dd2 hex2 =>
      split at h
      case h_1 => exact absurd h (by simp)
      case h_2 cyc d3 hloop =>
        by_cases hfeas : is_feasible_solution cyc = true
        · rw [if_pos hfeas] at h
          obtain ⟨h1, h2⟩ : cyc = out ∧ d3 = d2 := by
            constructor <;> [exact congrArg Prod.fst (Option.some.inj h);
              exact congrArg Prod.snd (Option.some.inj h)]
          rw [← h1, ← h2]
          have e1 := extractCoverage_count d u v c1 d1 hex1 e
          have e2 := extractCoverage_count d1 v (c1.other u) c2 dd2 hex2 e
          have e3 := extractCycleLoop_count fuel dd2 u v (c1.other u)
            (c2.other v) [c1, c2] cyc d3 hloop e
          simp only [List.count_cons, List.count_nil, beq_iff_eq] at e3
          by_cases hc1 : c1 = e <;> by_cases hc2 : c2 = e <;>
            simp [hc1, hc2] at e1 e2 e3 ⊢ <;> omega
        · rw [if_neg hfeas] at h
          exact absurd h (by simp)



/-- The splice loop preserves the combined multiset of the working cycle and the dictionary. -/
theorem spliceLoop_count (fuel : Nat) (cycle : List Coverage) (d : CovDict)
    (i : Nat) (out : List Coverage) (d2 : CovDict)
    (h : spliceLoop fuel cycle d i = some (out, d2)) (e : Coverage) :
    countD d e + cycle.count e = countD d2 e + out.count e := by
  induction fuel generalizing cycle d i with
  | zero => simp [spliceLoop] at h
  | succ fuel ih =>
    rw [spliceLoop] at h
    by_cases hil : i < cycle.length
    · rw [if_pos hil] at h
      split at h
      next uc vc hpy hget =>
        split at h
        next => exact absurd h (by simp)
        next sub d1 hec =>
          have hsub := extractCycle_count (totalD d + 1) d uc.v vc.v sub d1 hec e
          by_cases hempty : sub.isEmpty = true
          · rw [if_pos hempty] at h
            have hnil : sub = [] := List.isEmpty_iff.mp hempty
            subst hnil
            have := ih cycle d1 (i + 1) h
            simp at hsub
            omega
          · rw [if_neg hempty] at h
            have := ih (cycle.take i ++ sub ++ cycle.drop i) d1 i h
            have hcount : (cycle.take i ++ sub ++ cycle.drop i).count e =
                cycle.count e + sub.count e := by
              rw [List.count_append, List.count_append]
              have hsplit : (cycle.take i).count e + (cycle.drop i).count e =
                  cycle.count e := by
                conv_rhs => rw [← List.take_append_drop i cycle]
                rw [List.count_append]
              omega
            omega
      next => exact absurd h (by simp)
    · rw [if_neg hil] at h
      obtain ⟨h1, h2⟩ : cycle = out ∧ d = d2 := by
        constructor <;> [exact congrArg Prod.fst (Option.some.inj h);
          exact congrArg Prod.snd (Option.some.inj h)]
      rw [h1, h2]

/-- The reconstructed cycle is drawn exactly from the dictionary (the remainder accounts for the difference) and passes the final feasibility assertion. -/
theorem extractCycleFromDict_count (d : CovDict) (out : List Coverage)
    (d2 : CovDict) (h : extractCycleFromDict d = some (out, d2)) (e : Coverage) :
    countD d e = countD d2 e + out.count e ∧ is_feasible_solution out = true := by
  rw [extractCycleFromDict] at h
  split at h
  case h_1 => exact absurd h (by simp)
  case h_2 u v harc =>
    split at h
    case h_1 => exact absurd h (by simp)
    case h_2 cyc d1 hec =>
      split at h
      case h_1 => exact absurd h (by simp)
      case h_2 out1 dd2 hsp =>
        by_cases hfeas : is_feasible_solution out1 = true
        · rw [if_pos hfeas] at h
          obtain ⟨h1, h2⟩ : out1 = out ∧ dd2 = d2 := by
            constructor <;> [exact congrArg Prod.fst (Option.some.inj h);
              exact congrArg Prod.snd (Option.some.inj h)]
          rw [← h1, ← h2]
          have e1 := extractCycle_count (totalD d + 1) d u v cyc d1 hec e
          have e2 := spliceLoop_count (cyc.length + 2 * totalD d1 + 1) cyc d1 0
            out1 dd2 hsp e
          exact ⟨by omega, hfeas⟩
        · rw [if_neg hfeas] at h
          exact absurd h (by simp)

/-- Summing a nonnegative function over a sub-multiset gives a smaller sum. -/
theorem sum_map_le_of_count_le (l1 l2 : List Coverage) (f : Coverage → ℚ)
    (hc : ∀ e, l1.count e ≤ l2.count e) (hf : ∀ c, 0 ≤ f c) :
    (l1.map f).sum ≤ (l2.map f).sum := by
  have hm : (l1 : Multiset Coverage) ≤ (l2 : Multiset Coverage) := by
    rw [Multiset.le_iff_count]
    intro a
    simpa using hc a
  obtain ⟨u, hu⟩ := Multiset.le_iff_exists_add.mp hm
  have hsum : ((l2 : Multiset Coverage).map f).sum =
      ((l1 : Multiset Coverage).map f).sum + (u.map f).sum := by
    rw [hu, Multiset.map_add, Multiset.sum_add]
  have hnn : 0 ≤ (u.map f).sum := Multiset.sum_nonneg (by
    intro x hx
    obtain ⟨c, hc2, rfl⟩ := Multiset.mem_map.mp hx
    exact hf c)
  have h1 : (l1.map f).sum = ((l1 : Multiset Coverage).map f).sum := by simp
  have h2 : (l2.map f).sum = ((l2 : Multiset Coverage).map f).sum := by simp
  rw [h1, h2, hsum]
  linarith



/-- C6 (amended): for any input list, when coverages_to_cycle returns, its
result is a feasible cyclic solution drawn from the input multiset: each
coverage is used at most as often as in the input, so with nonnegative costs
the result never costs more; on the counterexample input it consumes the
whole multiset with identical cost, yet the order is not a rotation or
reflection of the original. -/
theorem coverages_to_cycle_within_multiset (cs out : List Coverage)
    (h : coveragesToCycle cs = some out) :
    is_feasible_solution out = true ∧
    (∀ e : Coverage, out.count e ≤ cs.count e) ∧
    (∀ cost : Coverage → ℚ, (∀ c : Coverage, 0 ≤ cost c) →
      (out.map cost).sum ≤ (cs.map cost).sum) := by
  rw [coveragesToCycle] at h
  obtain ⟨⟨out1, d2⟩, hE, hfst⟩ := Option.map_eq_some'.mp h
  have hout : out1 = out := hfst
  rw [← hout]
  have hcount : ∀ e : Coverage, out1.count e ≤ cs.count e := by
    intro e
    have := (extractCycleFromDict_count _ out1 d2 hE e).1
    rw [countD_convert] at this
    omega
  refine ⟨(extractCycleFromDict_count _ out1 d2 hE defaultCov).2, hcount, ?_⟩
  intro cost hcost
  exact sum_map_le_of_count_le out1 cs cost hcount hcost

/-- C6 witness: the amended statement applied to a concrete 2-element
feasible solution, whose reconstruction succeeds. -/
theorem coverages_to_cycle_within_multiset_witness :
    is_feasible_solution [⟨1, 0, 1, false⟩, ⟨0, 1, 0, false⟩] = true ∧
    List.count (⟨1, 0, 1, false⟩ : Coverage)
        [(⟨1, 0, 1, false⟩ : Coverage), ⟨0, 1, 0, false⟩] ≤ 1 := by
  have h := coverages_to_cycle_within_multiset [⟨1, 0, 1, false⟩, ⟨0, 1, 0, false⟩]
    [⟨1, 0, 1, false⟩, ⟨0, 1, 0, false⟩] (by decide)
  exact ⟨h.1, by simpa using h.2.1 ⟨1, 0, 1, false⟩⟩

/-- C6 counterexample: a feasible 8-coverage solution (a closed walk on the
complete graph over vertices 0..3 visiting vertices 1 and 3 several times)
whose reconstruction succeeds, consumes every coverage, but returns an order
that is neither a cyclic rotation of the original nor of its reversal: the
splice step reattaches the sub-cycles at different junctions. -/
theorem coverages_to_cycle_not_rotation_or_reflection :
    is_feasible_solution
        [⟨1, 3, 1, false⟩, ⟨3, 1, 3, false⟩, ⟨1, 3, 2, false⟩, ⟨1, 2, 3, false⟩,
         ⟨2, 1, 3, false⟩, ⟨0, 3, 1, false⟩, ⟨1, 0, 3, false⟩, ⟨0, 1, 3, false⟩] = true ∧
    coveragesToCycle
        [⟨1, 3, 1, false⟩, ⟨3, 1, 3, false⟩, ⟨1, 3, 2, false⟩, ⟨1, 2, 3, false⟩,
         ⟨2, 1, 3, false⟩, ⟨0, 3, 1, false⟩, ⟨1, 0, 3, false⟩, ⟨0, 1, 3, false⟩] =
      some [⟨0, 3, 1, false⟩, ⟨1, 0, 3, false⟩, ⟨0, 1, 3, false⟩, ⟨1, 3, 2, false⟩,
            ⟨1, 2, 3, false⟩, ⟨2, 1, 3, false⟩, ⟨1, 3, 1, false⟩, ⟨3, 1, 3, false⟩] ∧
    isRotationOrReflection
        [⟨1, 3, 1, false⟩, ⟨3, 1, 3, false⟩, ⟨1, 3, 2, false⟩, ⟨1, 2, 3, false⟩,
         ⟨2, 1, 3, false⟩, ⟨0, 3, 1, false⟩, ⟨1, 0, 3, false⟩, ⟨0, 1, 3, false⟩]
        [⟨0, 3, 1, false⟩, ⟨1, 0, 3, false⟩, ⟨0, 1, 3, false⟩, ⟨1, 3, 2, false⟩,
         ⟨1, 2, 3, false⟩, ⟨2, 1, 3, false⟩, ⟨1, 3, 1, false⟩, ⟨3, 1, 3, false⟩] = false := by
  refine ⟨by decide, by decide, by decide⟩

/-! Claim C7: the Local Optimizer of `mip/local_optimization.py`. -/

-- argmin lemmas
/-- The running minimum scan returns an index whose value is below the seed
and below every scanned element. -/
theorem argminAux_spec (xs : List ℚ) :
    ∀ (i bestI : Nat) (bestV : ℚ) (val : Nat → ℚ), val bestI = bestV →
      (∀ k, k < xs.length → val (i + k) = xs.getD k 0) →
      (val (argminAux i bestI bestV xs) ≤ bestV ∧
       ∀ k, k < xs.length → val (argminAux i bestI bestV xs) ≤ xs.getD k 0) := by
  induction xs with
  | nil =>
    intro i bestI bestV val hb hx
    simp [argminAux, hb]
  | cons x xs ih =>
    intro i bestI bestV val hb hx
    rw [argminAux]
    by_cases hlt : x < bestV
    · rw [if_pos hlt]
      have h0 : val i = x := by simpa using hx 0 (by simp)
      have hx2 : ∀ k, k < xs.length → val (i + 1 + k) = xs.getD k 0 := by
        intro k hk
        have := hx (k + 1) (by simpa using hk)
        rw [show i + (k + 1) = i + 1 + k by omega] at this
        simpa using this
      obtain ⟨hv, hall⟩ := ih (i + 1) i x val h0 hx2
      refine ⟨le_of_lt (lt_of_le_of_lt hv hlt), ?_⟩
      intro k hk
      match k with
      | 0 => simpa using hv
      | k + 1 =>
        have := hall k (by simpa using hk)
        simpa using this
    · rw [if_neg hlt]
      push_neg at hlt
      have hx2 : ∀ k, k < xs.length → val (i + 1 + k) = xs.getD k 0 := by
        intro k hk
        have := hx (k + 1) (by simpa using hk)
        rw [show i + (k + 1) = i + 1 + k by omega] at this
        simpa using this
      obtain ⟨hv, hall⟩ := ih (i + 1) bestI bestV val hb hx2
      refine ⟨hv, ?_⟩
      intro k hk
      match k with
      | 0 =>
        have h0 : val i = x := by simpa using hx 0 (by simp)
        simpa using le_trans hv hlt
      | k + 1 =>
        have := hall k (by simpa using hk)
        simpa using this

/-- The running minimum scan returns the seed index or an index among the
scanned ones. -/
theorem argminAux_lt (xs : List ℚ) :
    ∀ (i bestI : Nat) (bestV : ℚ), bestI < i →
      argminAux i bestI bestV xs < i + xs.length ∨
        argminAux i bestI bestV xs = bestI := by
  induction xs with
  | nil =>
    intro i bestI bestV h
    simp [argminAux]
  | cons x xs ih =>
    intro i bestI bestV h
    rw [argminAux]
    by_cases hlt : x < bestV
    · rw [if_pos hlt]
      rcases ih (i + 1) i x (by omega) with h2 | h2
      · left
        simp at h2 ⊢
        omega
      · left
        rw [h2]
        simp
    · rw [if_neg hlt]
      rcases ih (i + 1) bestI bestV (by omega) with h2 | h2
      · left
        simp at h2 ⊢
        omega
      · right
        exact h2

/-- `argminList` of a nonempty list is in range and attains the minimum. -/
theorem argminList_spec (l : List ℚ) (hne : l ≠ []) :
    argminList l < l.length ∧
      ∀ k, k < l.length → l.getD (argminList l) 0 ≤ l.getD k 0 := by
  match l with
  | [] => exact absurd rfl hne
  | x :: xs =>
    rw [argminList]
    constructor
    · rcases argminAux_lt xs 1 0 x (by omega) with h | h
      · simp at h ⊢
        omega
      · rw [h]
        simp
    · have hspec := argminAux_spec xs 1 0 x (fun j => (x :: xs).getD j 0)
        (by simp) (by
          intro k hk
          simp [List.getD_cons_succ, Nat.add_comm 1 k])
      intro k hk
      match k with
      | 0 =>
        simpa using hspec.1
      | k + 1 =>
        have := hspec.2 k (by simpa using hk)
        simpa using this



/-- A normalised coverage is reproduced by the constructor. -/
theorem mkCoverage_self (c : Coverage) (hn : c.u ≤ c.w) :
    mkCoverage c.u c.v c.w c.full = c := by
  rw [mkCoverage]
  cases c
  simp_all [min_eq_left, max_eq_right]

/-- The cost of an all-transit normalised group equals its transit cost sum. -/
theorem map_cost_eq_transit (cost : Coverage → ℚ) (g : List Coverage)
    (hnorm : ∀ c ∈ g, c.u ≤ c.w) (hnf : ∀ c ∈ g, c.full = false) :
    (g.map cost).sum =
      (g.map (fun c => cost (mkCoverage c.u c.v c.w false))).sum := by
  induction g with
  | nil => rfl
  | cons c rest ih =>
    simp only [List.map_cons, List.sum_cons]
    rw [ih (fun x hx => hnorm x (by simp [hx])) (fun x hx => hnf x (by simp [hx]))]
    have heq : cost c = cost (mkCoverage c.u c.v c.w false) := by
      rw [show mkCoverage c.u c.v c.w false = c from by
        rw [← hnf c (by simp)]
        exact mkCoverage_self c (hnorm c (by simp))]
    rw [heq]



/-- Full-flag assignment keeps the length. -/
theorem assignFullFrom_length (g : List Coverage) :
    ∀ i best, (assignFullFrom i best g).length = g.length := by
  induction g with
  | nil => intro i best; rfl
  | cons c rest ih =>
    intro i best
    simp [assignFullFrom, ih]

/-- Entry `k` of the assignment is the original passage with the full flag
exactly on the chosen index. -/
theorem assignFullFrom_getD (g : List Coverage) :
    ∀ i best k, k < g.length →
      (assignFullFrom i best g).getD k defaultCov =
        mkCoverage (g.getD k defaultCov).u (g.getD k defaultCov).v
          (g.getD k defaultCov).w ((i + k) == best) := by
  induction g with
  | nil =>
    intro i best k hk
    simp at hk
  | cons c rest ih =>
    intro i best k hk
    match k with
    | 0 => simp [assignFullFrom]
    | k + 1 =>
      rw [assignFullFrom]
      simp only [List.getD_cons_succ]
      rw [ih (i + 1) best k (by simpa using hk)]
      have : i + 1 + k = i + (k + 1) := by omega
      rw [this]

/-- With the chosen index out of range, the assignment costs the transit sum. -/
theorem assignFullFrom_sum_out (cost : Coverage → ℚ) (g : List Coverage) :
    ∀ i best, (best < i ∨ i + g.length ≤ best) →
      ((assignFullFrom i best g).map cost).sum =
        (g.map (fun c => cost (mkCoverage c.u c.v c.w false))).sum := by
  induction g with
  | nil => intro i best h; rfl
  | cons c rest ih =>
    intro i best h
    have hne : (i == best) = false := by
      simp only [List.length_cons] at h
      rcases h with h | h <;> simp <;> omega
    rw [assignFullFrom, hne]
    simp only [List.map_cons, List.sum_cons]
    rw [ih (i + 1) best (by simp only [List.length_cons] at h; omega)]

/-- With the chosen index in range, the assignment costs the transit sum plus
the relative cost of the chosen passage. -/
theorem assignFullFrom_sum_in (cost : Coverage → ℚ) (g : List Coverage) :
    ∀ i best, i ≤ best → best < i + g.length →
      ((assignFullFrom i best g).map cost).sum =
        (g.map (fun c => cost (mkCoverage c.u c.v c.w false))).sum +
          (cost (mkCoverage (g.getD (best - i) defaultCov).u
              (g.getD (best - i) defaultCov).v
              (g.getD (best - i) defaultCov).w true) -
           cost (mkCoverage (g.getD (best - i) defaultCov).u
              (g.getD (best - i) defaultCov).v
              (g.getD (best - i) defaultCov).w false)) := by
  induction g with
  | nil =>
    intro i best h1 h2
    simp at h2
    omega
  | cons c rest ih =>
    intro i best h1 h2
    by_cases hib : i = best
    · have heq : (i == best) = true := by simp [hib]
      rw [assignFullFrom, heq]
      simp only [List.map_cons, List.sum_cons]
      rw [assignFullFrom_sum_out cost rest (i + 1) best (Or.inl (by omega))]
      have h0 : best - i = 0 := by omega
      rw [h0]
      simp only [List.getD_cons_zero]
      ring
    · have hne : (i == best) = false := by simp [hib]
      rw [assignFullFrom, hne]
      simp only [List.map_cons, List.sum_cons]
      rw [ih (i + 1) best (by omega) (by simp only [List.length_cons] at h2; omega)]
      have hsub : best - i = (best - (i + 1)) + 1 := by omega
      rw [hsub]
      simp only [List.getD_cons_succ]
      ring

/-- A normalised group with exactly one full coverage costs its transit sum
plus the relative cost at the full position. -/
theorem one_full_sum (cost : Coverage → ℚ) (g : List Coverage)
    (hnorm : ∀ c ∈ g, c.u ≤ c.w)
    (hone : (g.filter (fun c => c.full)).length = 1) :
    ∃ j, j < g.length ∧ (g.getD j defaultCov).full = true ∧
      (g.map cost).sum =
        (g.map (fun c => cost (mkCoverage c.u c.v c.w false))).sum +
          (cost (mkCoverage (g.getD j defaultCov).u (g.getD j defaultCov).v
              (g.getD j defaultCov).w true) -
           cost (mkCoverage (g.getD j defaultCov).u (g.getD j defaultCov).v
              (g.getD j defaultCov).w false)) := by
  induction g with
  | nil => simp at hone
  | cons c rest ih =>
    by_cases hcf : c.full = true
    · have hfil : (rest.filter (fun c => c.full)).length = 0 := by
        rw [List.filter_cons, if_pos (by simp [hcf])] at hone
        simpa using hone
      have hrestnf : ∀ x ∈ rest, x.full = false := by
        intro x hx
        by_contra hxf
        have hmem : x ∈ rest.filter (fun c => c.full) := by
          rw [List.mem_filter]
          exact ⟨hx, by simpa using hxf⟩
        rw [List.length_eq_zero] at hfil
        simp [hfil] at hmem
      refine ⟨0, by simp, by simpa using hcf, ?_⟩
      simp only [List.map_cons, List.sum_cons, List.getD_cons_zero]
      rw [← map_cost_eq_transit cost rest
        (fun x hx => hnorm x (by simp [hx])) hrestnf]
      have hc : cost c = cost (mkCoverage c.u c.v c.w true) := by
        rw [show mkCoverage c.u c.v c.w true = c from by
          rw [show true = c.full from hcf.symm]
          exact mkCoverage_self c (hnorm c (by simp))]
      rw [hc]
      ring
    · replace hcf : c.full = false := by simpa using hcf
      have hfil : (rest.filter (fun c => c.full)).length = 1 := by
        rw [List.filter_cons, if_neg (by simp [hcf])] at hone
        exact hone
      obtain ⟨j, hj, hjf, hsum⟩ := ih (fun x hx => hnorm x (by simp [hx])) hfil
      refine ⟨j + 1, by simpa using hj, by simpa using hjf, ?_⟩
      simp only [List.map_cons, List.sum_cons, List.getD_cons_succ]
      rw [hsum]
      have hc : cost c = cost (mkCoverage c.u c.v c.w false) := by
        rw [show mkCoverage c.u c.v c.w false = c from by
          rw [show false = c.full from hcf.symm]
          exact mkCoverage_self c (hnorm c (by simp))]
      rw [hc]
      ring



/-- Indexing commutes with mapping a cost function. -/
theorem getD_map_cost (f : Coverage → ℚ) (g : List Coverage) (k : Nat)
    (hk : k < g.length) :
    (g.map f).getD k 0 = f (g.getD k defaultCov) := by
  rw [List.getD_eq_getElem _ _ (by simpa using hk), List.getD_eq_getElem _ _ hk]
  simp

/-- Re-optimising one tile never increases its cost, for a normalised group
with exactly one full coverage if mandatory and none otherwise. -/
theorem optimizeTile_cost (mand : Nat → Bool) (cost : Coverage → ℚ)
    (tile : Nat) (g out : List Coverage)
    (h : optimizeTile mand cost tile g = some out)
    (hnorm : ∀ c ∈ g, c.u ≤ c.w)
    (hfull : mand tile = true → (g.filter (fun c => c.full)).length = 1)
    (hnofull : mand tile = false → ∀ c ∈ g, c.full = false) :
    (out.map cost).sum ≤ (g.map cost).sum := by
  rw [optimizeTile.eq_def] at h
  by_cases hguard : ¬ (g.all (fun uvw => uvw.v == tile)) = true
  · rw [if_pos hguard] at h
    exact absurd h (by simp)
  · rw [if_neg hguard] at h
    by_cases hm : mand tile = true
    · rw [if_neg (by simp [hm])] at h
      match g, h with
      | c0 :: crest, h =>
        have hout : out = assignFullFrom 0
            (argminList ((c0 :: crest).map
              (fun uvw => relative_cost cost uvw.u uvw.v uvw.w)))
            (c0 :: crest) := (Option.some.inj h).symm
        set relList := (c0 :: crest).map
          (fun uvw => relative_cost cost uvw.u uvw.v uvw.w) with hrel
        set best := argminList relList with hbest
        have hspec := argminList_spec relList (by simp [hrel])
        have hblen : best < (c0 :: crest).length := by
          have := hspec.1
          simpa [hrel] using this
        obtain ⟨j, hj, hjf, hjsum⟩ := one_full_sum cost (c0 :: crest) hnorm (hfull hm)
        have houts : (out.map cost).sum =
            ((c0 :: crest).map (fun c => cost (mkCoverage c.u c.v c.w false))).sum +
              (cost (mkCoverage ((c0 :: crest).getD best defaultCov).u
                  ((c0 :: crest).getD best defaultCov).v
                  ((c0 :: crest).getD best defaultCov).w true) -
               cost (mkCoverage ((c0 :: crest).getD best defaultCov).u
                  ((c0 :: crest).getD best defaultCov).v
                  ((c0 :: crest).getD best defaultCov).w false)) := by
          rw [hout]
          have := assignFullFrom_sum_in cost (c0 :: crest) 0 best (by omega)
            (by simpa using hblen)
          simpa using this
        have hineq : relList.getD best 0 ≤ relList.getD j 0 :=
          hspec.2 j (by simpa [hrel] using hj)
        rw [getD_map_cost _ _ best hblen, getD_map_cost _ _ j hj] at hineq
        rw [houts, hjsum]
        have hexp : ∀ c : Coverage, relative_cost cost c.u c.v c.w =
            cost (mkCoverage c.u c.v c.w true) - cost (mkCoverage c.u c.v c.w false) :=
          fun c => rfl
        rw [hexp, hexp] at hineq
        linarith
    · replace hm : mand tile = false := by simpa using hm
      rw [if_pos (by simp [hm])] at h
      have hout : out = g.map (fun uvw => mkCoverage uvw.u uvw.v uvw.w false) :=
        (Option.some.inj h).symm
      rw [hout, List.map_map]
      rw [map_cost_eq_transit cost g hnorm (hnofull hm)]
      exact le_of_eq rfl



/-- Keys after one grouping step: unchanged, or the new key appended. -/
theorem addToGroup_keys (acc : List (Nat × List Coverage)) (c : Coverage) :
    (addToGroup acc c).map Prod.fst =
      if c.v ∈ acc.map Prod.fst then acc.map Prod.fst
      else acc.map Prod.fst ++ [c.v] := by
  induction acc with
  | nil => simp [addToGroup]
  | cons p rest ih =>
    obtain ⟨v, g⟩ := p
    rw [addToGroup]
    by_cases hc : c.v = v
    · rw [if_pos hc]
      simp [hc]
    · rw [if_neg hc]
      simp only [List.map_cons]
      rw [ih]
      by_cases hmem : c.v ∈ rest.map Prod.fst
      · rw [if_pos hmem, if_pos (by simp [hmem])]
      · rw [if_neg hmem, if_neg (by simp [hmem, hc])]
        simp

/-- One grouping step preserves the groups-are-filters characterisation. -/
theorem addToGroup_char (c : Coverage) (processed : List Coverage) :
    ∀ acc : List (Nat × List Coverage),
      (∀ p ∈ acc, p.2 = processed.filter (fun x => x.v == p.1)) →
      (∀ x ∈ processed, x.v = c.v → c.v ∈ acc.map Prod.fst) →
      (acc.map Prod.fst).Nodup →
      ∀ p ∈ addToGroup acc c, p.2 = (processed ++ [c]).filter (fun x => x.v == p.1) := by
  intro acc
  induction acc with
  | nil =>
    intro h1 h2 h3 p hp
    rw [addToGroup] at hp
    simp only [List.mem_singleton] at hp
    subst hp
    simp only [List.filter_append]
    have hemp : processed.filter (fun x => x.v == c.v) = [] := by
      rw [List.filter_eq_nil]
      intro x hx
      simp only [beq_iff_eq]
      intro hxv
      exact absurd (h2 x hx hxv) (by simp)
    rw [hemp]
    simp
  | cons q rest ih =>
    obtain ⟨v, g⟩ := q
    intro h1 h2 h3 p hp
    rw [addToGroup] at hp
    by_cases hc : c.v = v
    · rw [if_pos hc] at hp
      rcases List.mem_cons.mp hp with hph | hpt
      · subst hph
        simp only [List.filter_append]
        have hg := h1 (v, g) (by simp)
        simp only at hg
        rw [← hg]
        simp [hc]
      · have hpold := h1 p (by simp [hpt])
        rw [List.filter_append, hpold]
        have hne : (c.v == p.1) = false := by
          simp only [List.map_cons, List.nodup_cons] at h3
          have hmem : p.1 ∈ rest.map Prod.fst := List.mem_map.mpr ⟨p, hpt, rfl⟩
          have : p.1 ≠ v := fun he => h3.1 (he ▸ hmem)
          simp [hc, this.symm]
        simp [hne]
    · rw [if_neg hc] at hp
      rcases List.mem_cons.mp hp with hph | hpt
      · subst hph
        have hg := h1 (v, g) (by simp)
        simp only at hg ⊢
        rw [List.filter_append, hg]
        have hne : (c.v == v) = false := by simp [hc]
        simp [hne]
      · refine ih (fun p hp => h1 p (by simp [hp])) ?_
          (by simp only [List.map_cons, List.nodup_cons] at h3; exact h3.2) p hpt
        intro x hx hxv
        have := h2 x hx hxv
        simp only [List.map_cons, List.mem_cons] at this
        rcases this with h | h
        · exact absurd h hc
        · exact h

/-- The grouping fold keeps every group equal to the filter of the processed
prefix by its key. -/
theorem foldl_addToGroup_char (cs : List Coverage) :
    ∀ (acc : List (Nat × List Coverage)) (processed : List Coverage),
      (∀ p ∈ acc, p.2 = processed.filter (fun x => x.v == p.1)) →
      (∀ x ∈ processed, x.v ∈ acc.map Prod.fst) →
      (acc.map Prod.fst).Nodup →
      ∀ p ∈ cs.foldl addToGroup acc,
        p.2 = (processed ++ cs).filter (fun x => x.v == p.1) := by
  induction cs with
  | nil =>
    intro acc processed h1 h2 h3 p hp
    simpa using h1 p hp
  | cons c cs ih =>
    intro acc processed h1 h2 h3 p hp
    rw [List.foldl_cons] at hp
    have happ : processed ++ c :: cs = (processed ++ [c]) ++ cs := by simp
    rw [happ]
    refine ih (addToGroup acc c) (processed ++ [c])
      (addToGroup_char c processed acc h1 (fun x hx hxv => hxv ▸ h2 x hx) h3)
      ?_ ?_ p hp
    · intro x hx
      rw [addToGroup_keys]
      rcases List.mem_append.mp hx with hxp | hxc
      · by_cases hmem : c.v ∈ acc.map Prod.fst
        · rw [if_pos hmem]
          exact h2 x hxp
        · rw [if_neg hmem]
          exact List.mem_append.mpr (Or.inl (h2 x hxp))
      · have hxc2 : x = c := by simpa using hxc
        subst hxc2
        by_cases hmem : x.v ∈ acc.map Prod.fst
        · rw [if_pos hmem]
          exact hmem
        · rw [if_neg hmem]
          simp
    · rw [addToGroup_keys]
      by_cases hmem : c.v ∈ acc.map Prod.fst
      · rw [if_pos hmem]
        exact h3
      · rw [if_neg hmem]
        simp [List.nodup_append, h3, hmem]

/-- Each group of `groupByTile` is the subsequence of the solution centred at
its key. -/
theorem groupByTile_char (cs : List Coverage) :
    ∀ p ∈ groupByTile cs, p.2 = cs.filter (fun x => x.v == p.1) := by
  intro p hp
  have := foldl_addToGroup_char cs [] [] (by simp) (by simp) (by simp) p hp
  simpa using this



/-- One grouping step adds exactly the new coverage's cost to the joined sum. -/
theorem addToGroup_join_sum (f : Coverage → ℚ) (acc : List (Nat × List Coverage))
    (c : Coverage) :
    (((addToGroup acc c).map Prod.snd).join.map f).sum =
      ((acc.map Prod.snd).join.map f).sum + f c := by
  induction acc with
  | nil => simp [addToGroup]
  | cons p rest ih =>
    obtain ⟨v, g⟩ := p
    rw [addToGroup]
    by_cases hc : c.v = v
    · rw [if_pos hc]
      simp
      ring
    · rw [if_neg hc]
      simp only [List.map_cons, List.join_cons, List.map_append, List.sum_append]
      rw [ih]
      ring

/-- The grouping fold accumulates the costs of the processed coverages. -/
theorem foldl_addToGroup_join_sum (f : Coverage → ℚ) (cs : List Coverage) :
    ∀ acc : List (Nat × List Coverage),
      (((cs.foldl addToGroup acc).map Prod.snd).join.map f).sum =
        ((acc.map Prod.snd).join.map f).sum + (cs.map f).sum := by
  induction cs with
  | nil => intro acc; simp
  | cons c cs ih =>
    intro acc
    rw [List.foldl_cons, ih, addToGroup_join_sum]
    simp only [List.map_cons, List.sum_cons]
    ring

/-- Grouping preserves the total cost of the solution. -/
theorem groupByTile_join_sum (f : Coverage → ℚ) (cs : List Coverage) :
    (((groupByTile cs).map Prod.snd).join.map f).sum = (cs.map f).sum := by
  rw [groupByTile, foldl_addToGroup_join_sum]
  simp

/-- Re-optimising all tiles never increases the concatenated cost, given the
per-tile inequality. -/
theorem optimizeTiles_sum_le (mand : Nat → Bool) (cost : Coverage → ℚ)
    (groups : List (Nat × List Coverage)) (improved : List Coverage)
    (h : optimizeTiles mand cost groups = some improved)
    (hle : ∀ p ∈ groups, ∀ out, optimizeTile mand cost p.1 p.2 = some out →
      (out.map cost).sum ≤ (p.2.map cost).sum) :
    (improved.map cost).sum ≤ ((groups.map Prod.snd).join.map cost).sum := by
  induction groups generalizing improved with
  | nil =>
    rw [optimizeTiles] at h
    have : ([] : List Coverage) = improved := Option.some.inj h
    rw [← this]
    simp
  | cons p rest ih =>
    rw [optimizeTiles] at h
    cases h1 : optimizeTile mand cost p.1 p.2 with
    | none =>
      rw [h1] at h
      exact absurd h (by simp)
    | some out =>
      rw [h1] at h
      cases h2 : optimizeTiles mand cost rest with
      | none =>
        rw [h2] at h
        exact absurd h (by simp)
      | some outs =>
        rw [h2] at h
        have himp : out ++ outs = improved := Option.some.inj h
        rw [← himp]
        simp only [List.map_cons, List.join_cons, List.map_append, List.sum_append]
        have ha := hle p (by simp) out h1
        have hb := ih outs h2 (fun q hq => hle q (by simp [hq]))
        linarith



/-- C7: the Local Optimizer (1) rewrites every group at a non-mandatory
vertex to all-transit copies, and at a mandatory vertex assigns `full=true`
exactly to the first recorded coverage minimising the relative cost
(servicing minus transit) and `full=false` to all others; and (2) its output
never costs more than its input, for any solution of normalised coverages in
which each mandatory vertex carries exactly one full coverage and no
non-mandatory vertex carries one, under nonnegative costs. -/
theorem local_optimizer_properties :
    (∀ (mand : Nat → Bool) (cost : Coverage → ℚ) (tile : Nat)
        (g out : List Coverage), optimizeTile mand cost tile g = some out →
      (mand tile = false →
        out = g.map (fun c => mkCoverage c.u c.v c.w false)) ∧
      (mand tile = true → ∃ best, best < g.length ∧
        (∀ k, k < g.length →
          relative_cost cost (g.getD best defaultCov).u (g.getD best defaultCov).v
              (g.getD best defaultCov).w ≤
            relative_cost cost (g.getD k defaultCov).u (g.getD k defaultCov).v
              (g.getD k defaultCov).w) ∧
        out.length = g.length ∧
        (∀ k, k < g.length → out.getD k defaultCov =
          mkCoverage (g.getD k defaultCov).u (g.getD k defaultCov).v
            (g.getD k defaultCov).w (k == best)))) ∧
    (∀ (mand : Nat → Bool) (cost : Coverage → ℚ) (s out : List Coverage),
      localOptimizer mand cost s = some out →
      (∀ c : Coverage, 0 ≤ cost c) →
      (∀ c ∈ s, c.u ≤ c.w) →
      (∀ v : Nat, mand v = true →
        (s.filter (fun c => c.v == v && c.full)).length = 1) →
      (∀ c ∈ s, c.full = true → mand c.v = true) →
      (out.map cost).sum ≤ (s.map cost).sum) := by
  constructor
  · intro mand cost tile g out h
    rw [optimizeTile.eq_def] at h
    by_cases hguard : ¬ (g.all (fun uvw => uvw.v == tile)) = true
    · rw [if_pos hguard] at h
      exact absurd h (by simp)
    · rw [if_neg hguard] at h
      constructor
      · intro hm
        rw [if_pos (by simp [hm])] at h
        exact (Option.some.inj h).symm
      · intro hm
        rw [if_neg (by simp [hm])] at h
        match g, h with
        | c0 :: crest, h =>
          have hout : out = assignFullFrom 0
              (argminList ((c0 :: crest).map
                (fun uvw => relative_cost cost uvw.u uvw.v uvw.w)))
              (c0 :: crest) := (Option.some.inj h).symm
          set relList := (c0 :: crest).map
            (fun uvw => relative_cost cost uvw.u uvw.v uvw.w) with hrel
          set best := argminList relList with hbest
          have hspec := argminList_spec relList (by simp [hrel])
          have hblen : best < (c0 :: crest).length := by
            have := hspec.1
            simpa [hrel] using this
          refine ⟨best, hblen, ?_, ?_, ?_⟩
          · intro k hk
            have := hspec.2 k (by simpa [hrel] using hk)
            rwa [getD_map_cost _ _ best hblen, getD_map_cost _ _ k hk] at this
          · rw [hout, assignFullFrom_length]
          · intro k hk
            rw [hout, assignFullFrom_getD _ 0 best k hk]
            simp
  · intro mand cost s out h hnn hnorm hone hfm
    rw [localOptimizer] at h
    cases himp : optimizeTiles mand cost (groupByTile s) with
    | none =>
      rw [himp] at h
      exact absurd h (by simp)
    | some improved =>
      rw [himp] at h
      -- reconstruction uses a sub-multiset of improved
      have hrec := coverages_to_cycle_within_multiset improved out h
      have h1 : (out.map cost).sum ≤ (improved.map cost).sum :=
        hrec.2.2 cost hnn
      -- each tile group never increases its cost
      have h2 : (improved.map cost).sum ≤
          (((groupByTile s).map Prod.snd).join.map cost).sum := by
        refine optimizeTiles_sum_le mand cost (groupByTile s) improved himp ?_
        intro p hp tout htout
        have hchar := groupByTile_char s p hp
        refine optimizeTile_cost mand cost p.1 p.2 tout htout ?_ ?_ ?_
        · intro c hc
          rw [hchar] at hc
          exact hnorm c (List.mem_filter.mp hc).1
        · intro hm
          rw [hchar, List.filter_filter]
          have := hone p.1 hm
          simpa [Bool.and_comm] using this
        · intro hm c hc
          rw [hchar] at hc
          obtain ⟨hcs, hcv⟩ := List.mem_filter.mp hc
          by_contra hcf
          replace hcf : c.full = true := by simpa using hcf
          have := hfm c hcs hcf
          rw [show c.v = p.1 from by simpa using hcv] at this
          rw [this] at hm
          exact absurd hm (by simp)
      have h3 : (((groupByTile s).map Prod.snd).join.map cost).sum =
          (s.map cost).sum := groupByTile_join_sum cost s
      linarith



/-- C7 witness: both parts applied to a concrete two-vertex solution with
vertex 0 mandatory. -/
theorem local_optimizer_properties_witness :
    (([⟨0, 1, 0, false⟩] : List Coverage) =
      ([⟨0, 1, 0, false⟩] : List Coverage).map
        (fun c => mkCoverage c.u c.v c.w false)) ∧
    ((([⟨1, 0, 1, true⟩, ⟨0, 1, 0, false⟩] : List Coverage).map
        (fun c => if c.full = true then (1 : ℚ) else 0)).sum ≤
     (([⟨1, 0, 1, true⟩, ⟨0, 1, 0, false⟩] : List Coverage).map
        (fun c => if c.full = true then (1 : ℚ) else 0)).sum) := by
  constructor
  · exact (local_optimizer_properties.1 (fun v => v == 0)
      (fun c => if c.full = true then (1 : ℚ) else 0) 1
      [⟨0, 1, 0, false⟩] [⟨0, 1, 0, false⟩] (by decide)).1 (by decide)
  · refine local_optimizer_properties.2 (fun v => v == 0)
      (fun c => if c.full = true then (1 : ℚ) else 0)
      [⟨1, 0, 1, true⟩, ⟨0, 1, 0, false⟩] [⟨1, 0, 1, true⟩, ⟨0, 1, 0, false⟩]
      (by decide) ?_ (by decide) ?_ (by decide)
    · intro c
      by_cases hc : c.full = true <;> simp [hc]
    · intro v hv
      have hv0 : v = 0 := by simpa using hv
      subst hv0
      decide





/-- On a tour whose consecutive vertices are distinct, the window loop
succeeds and returns one coverage per window, built by `mkCoverage` from
the three consecutive tour vertices. -/
theorem windowLoop_spec (mand : Nat → Bool) :
    ∀ (l : List Nat) (covered : List Nat),
      (∀ k, k + 1 < l.length → l.getD k 0 ≠ l.getD (k + 1) 0) →
      ∃ sol, windowLoop mand covered l = some sol ∧
        sol.length + 2 = max l.length 2 ∧
        (∀ k, k < sol.length → ∃ f, sol.getD k defaultCov =
          mkCoverage (l.getD k 0) (l.getD (k + 1) 0) (l.getD (k + 2) 0) f) := by
  intro l
  induction l with
  | nil =>
    intro covered hd
    exact ⟨[], rfl, by simp, by simp⟩
  | cons a t ih =>
    intro covered hd
    match t with
    | [] => exact ⟨[], rfl, by simp, by simp⟩
    | [b] => exact ⟨[], rfl, by simp, by simp⟩
    | b :: c :: rest =>
      have hab : a ≠ b := hd 0 (by simp)
      have hbc : b ≠ c := hd 1 (by simp)
      have hd2 : ∀ k, k + 1 < (b :: c :: rest).length →
          (b :: c :: rest).getD k 0 ≠ (b :: c :: rest).getD (k + 1) 0 := by
        intro k hk
        have := hd (k + 1) (by simpa using hk)
        simpa using this
      obtain ⟨sol, hsol, hlen, hget⟩ :=
        ih (if mand b && !(covered.contains b)
          then b :: covered else covered) hd2
      refine ⟨mkCoverage a b c (mand b && !(covered.contains b)) :: sol, ?_, ?_, ?_⟩
      · rw [windowLoop]
        rw [if_neg (by tauto)]
        rw [hsol]
      · simp only [List.length_cons] at hlen ⊢
        omega
      · intro k hk
        match k with
        | 0 =>
          exact ⟨mand b && !(covered.contains b), by simp⟩
        | k + 1 =>
          obtain ⟨f, hf⟩ := hget k (by simpa using hk)
          exact ⟨f, by simpa using hf⟩



/-- Three normalised coverages built from overlapping windows of a vertex
sequence with distinct consecutive vertices chain consistently. -/
theorem in_line_mk (a b c d e : Nat) (f1 f2 f3 : Bool)
    (h1 : b ≠ c) (h2 : c ≠ d) :
    is_in_line (mkCoverage a b c f1) (mkCoverage b c d f2)
      (mkCoverage c d e f3) = true := by
  have hconn1 : (mkCoverage a b c f1).are_connected (mkCoverage b c d f2) = true := by
    simp only [Coverage.are_connected, mkCoverage, Coverage.elemB, Bool.and_eq_true,
      Bool.or_eq_true, beq_iff_eq, bne_iff_ne, ne_eq]
    omega
  have hconn2 : (mkCoverage b c d f2).are_connected (mkCoverage c d e f3) = true := by
    simp only [Coverage.are_connected, mkCoverage, Coverage.elemB, Bool.and_eq_true,
      Bool.or_eq_true, beq_iff_eq, bne_iff_ne, ne_eq]
    omega
  rw [is_in_line, hconn1, hconn2]
  simp only [Bool.not_true, Bool.or_self, Bool.false_or, if_neg]
  show ((mkCoverage a b c f1).v == (mkCoverage b c d f2).u &&
      ((mkCoverage b c d f2).w == (mkCoverage c d e f3).v) ||
    ((mkCoverage a b c f1).v == (mkCoverage b c d f2).w &&
      ((mkCoverage b c d f2).u == (mkCoverage c d e f3).v))) = true
  simp only [mkCoverage, Bool.or_eq_true, Bool.and_eq_true, beq_iff_eq]
  omega

/-- A pair of mutually degenerate coverages over two distinct vertices is
accepted by `is_feasible_solution`. -/
theorem feas_pair (a b : Nat) (f g : Bool) (h : a ≠ b) :
    is_feasible_solution [mkCoverage a b a f, mkCoverage b a b g] = true := by
  show ((mkCoverage a b a f).are_connected (mkCoverage b a b g) &&
    (mkCoverage a b a f).is_u && (mkCoverage b a b g).is_u) = true
  simp only [mkCoverage, Coverage.are_connected, Coverage.elemB, Coverage.is_u,
    Bool.and_eq_true, Bool.or_eq_true, beq_iff_eq, bne_iff_ne, ne_eq]
  omega



/-- Any output of the window loop over a closed tour with distinct
consecutive vertices, extended by its second vertex, passes
`is_feasible_solution`. -/
theorem window_output_feasible (et : List Nat)
    (hlen : 3 ≤ et.length)
    (hdist : ∀ k, k + 1 < et.length → et.getD k 0 ≠ et.getD (k + 1) 0)
    (hclose : et.getD (et.length - 1) 0 = et.getD 0 0)
    (sol : List Coverage)
    (hslen : sol.length + 2 = (et ++ [et.getD 1 0]).length)
    (hsget : ∀ k, k < sol.length → ∃ f, sol.getD k defaultCov =
      mkCoverage ((et ++ [et.getD 1 0]).getD k 0)
        ((et ++ [et.getD 1 0]).getD (k + 1) 0)
        ((et ++ [et.getD 1 0]).getD (k + 2) 0) f) :
    is_feasible_solution sol = true := by
  set E := et ++ [et.getD 1 0] with hE
  have hElen : E.length = et.length + 1 := by simp [hE]
  have hm : sol.length = et.length - 1 := by omega
  have hEet : ∀ k, k < et.length → E.getD k 0 = et.getD k 0 := by
    intro k hk
    rw [hE, List.getD_append _ _ _ _ hk]
  have hElast : E.getD et.length 0 = et.getD 1 0 := by
    rw [hE, List.getD_append_right _ _ _ _ (le_refl _)]
    simp
  have hgm : E.getD (sol.length) 0 = E.getD 0 0 := by
    rw [hEet (sol.length) (by omega), hEet 0 (by omega), hm]
    exact hclose
  have hgm1 : E.getD (sol.length + 1) 0 = E.getD 1 0 := by
    rw [show sol.length + 1 = et.length from by omega, hElast,
      hEet 1 (by omega)]
  have hEdist : ∀ k, k + 1 < E.length → E.getD k 0 ≠ E.getD (k + 1) 0 := by
    intro k hk
    by_cases hk2 : k + 1 < et.length
    · rw [hEet k (by omega), hEet (k + 1) hk2]
      exact hdist k hk2
    · have hk3 : k + 1 = et.length := by omega
      rw [show k = et.length - 1 from by omega, hEet _ (by omega),
        show et.length - 1 + 1 = et.length from by omega, hElast, hclose]
      have h01 := hdist 0 (by omega)
      exact h01
  match sol, hsget, hm with
  | [], _, hm =>
    simp at hm
    omega
  | [_], _, hm =>
    simp at hm
    omega
  | [s0, s1], hsget, hm =>
    obtain ⟨f0, h0⟩ := hsget 0 (by simp)
    obtain ⟨f1, h1⟩ := hsget 1 (by simp)
    simp only [List.getD_cons_zero, List.getD_cons_succ] at h0 h1
    have hg2 : E.getD 2 0 = E.getD 0 0 := hgm
    have hg3 : E.getD 3 0 = E.getD 1 0 := hgm1
    rw [hg2] at h0 h1
    rw [hg3] at h1
    rw [h0, h1]
    exact feas_pair (E.getD 0 0) (E.getD 1 0) f0 f1 (by
      have := hEdist 0 (by omega)
      exact this)
  | s0 :: s1 :: s2 :: tl, hsget, hm =>
    show consecutiveTriples ((s0 :: s1 :: s2 :: tl) ++ [s0, s1]) = true
    rw [consecutiveTriples_iff]
    intro i hi
    set sol := s0 :: s1 :: s2 :: tl with hsol
    set L := sol ++ [s0, s1] with hL
    have hmlen : 3 ≤ sol.length := by simp [hsol]
    have hLlen : L.length = sol.length + 2 := by simp [hL]
    have hLget : ∀ j, j < sol.length → L.getD j defaultCov = sol.getD j defaultCov := by
      intro j hj
      rw [hL, List.getD_append _ _ _ _ hj]
    have hLm : L.getD sol.length defaultCov = s0 := by
      rw [hL, List.getD_append_right _ _ _ _ (le_refl _)]
      simp
    have hLm1 : L.getD (sol.length + 1) defaultCov = s1 := by
      rw [hL, List.getD_append_right _ _ _ _ (by omega)]
      simp
    have hs0 : s0 = sol.getD 0 defaultCov := rfl
    have hs1 : s1 = sol.getD 1 defaultCov := rfl
    have hiL : i + 2 < sol.length + 2 := by
      rw [hLlen] at hi
      exact hi
    -- the three cyclically shifted windows
    by_cases hc1 : i + 2 < sol.length
    · obtain ⟨fa, ha⟩ := hsget i (by omega)
      obtain ⟨fb, hb⟩ := hsget (i + 1) (by omega)
      obtain ⟨fc, hc⟩ := hsget (i + 2) (by omega)
      rw [hLget i (by omega), hLget (i + 1) (by omega), hLget (i + 2) (by omega),
        ha, hb, hc]
      exact in_line_mk _ _ _ _ _ _ _ _
        (hEdist (i + 1) (by omega)) (hEdist (i + 2) (by omega))
    · by_cases hc2 : i + 2 = sol.length
      · obtain ⟨fa, ha⟩ := hsget i (by omega)
        obtain ⟨fb, hb⟩ := hsget (i + 1) (by omega)
        obtain ⟨fc, hc⟩ := hsget 0 (by omega)
        rw [hLget i (by omega), hLget (i + 1) (by omega),
          show i + 2 = sol.length from hc2, hLm, hs0, ha, hb, hc]
        rw [show (0 : Nat) + 1 = 1 from rfl, show (0 : Nat) + 2 = 2 from rfl]
        rw [← hgm, ← hgm1, ← hc2]
        rw [show i + 2 + 1 = i + 3 from rfl]
        exact in_line_mk _ _ _ _ _ _ _ _
          (hEdist (i + 1) (by omega)) (hEdist (i + 2) (by omega))
      · have hc3 : i + 2 = sol.length + 1 := by omega
        obtain ⟨fa, ha⟩ := hsget i (by omega)
        obtain ⟨fb, hb⟩ := hsget 0 (by omega)
        obtain ⟨fc, hc⟩ := hsget 1 (by omega)
        simp only [Nat.reduceAdd] at hb hc
        rw [hLget i (by omega),
          show i + 1 = sol.length from by omega, hLm,
          show i + 2 = sol.length + 1 from hc3, hLm1, hs0, hs1, ha, hb, hc]
        rw [show i + 1 = sol.length from by omega, hc3]
        rw [← hgm, ← hgm1]
        exact in_line_mk (E.getD i 0) (E.getD sol.length 0)
          (E.getD (sol.length + 1) 0) (E.getD 2 0) (E.getD 3 0) fa fb fc
          (hEdist sol.length (by omega))
          (by rw [hgm1]; exact hEdist 1 (by omega))



/-- Extending a closed tour with distinct consecutive vertices by its second
vertex keeps consecutive vertices distinct. -/
theorem extended_tour_distinct (et : List Nat) (hlen : 3 ≤ et.length)
    (hdist : ∀ k, k + 1 < et.length → et.getD k 0 ≠ et.getD (k + 1) 0)
    (hclose : et.getD (et.length - 1) 0 = et.getD 0 0) :
    ∀ k, k + 1 < (et ++ [et.getD 1 0]).length →
      (et ++ [et.getD 1 0]).getD k 0 ≠ (et ++ [et.getD 1 0]).getD (k + 1) 0 := by
  have hEet : ∀ k, k < et.length →
      (et ++ [et.getD 1 0]).getD k 0 = et.getD k 0 :=
    fun k hk => List.getD_append _ _ _ _ hk
  have hElast : (et ++ [et.getD 1 0]).getD et.length 0 = et.getD 1 0 := by
    rw [List.getD_append_right _ _ _ _ (le_refl _)]
    simp
  intro k hk
  simp only [List.length_append, List.length_cons, List.length_nil] at hk
  by_cases hk2 : k + 1 < et.length
  · rw [hEet k (by omega), hEet (k + 1) hk2]
    exact hdist k hk2
  · rw [show k = et.length - 1 from by omega, hEet _ (by omega),
      show et.length - 1 + 1 = et.length from by omega, hElast, hclose]
    exact hdist 0 (by omega)

/-- Claim C10: `compute_heuristic_solution` asserts at least two mandatory
vertices (part one: with fewer it fails, embedded as `none`), and otherwise
walks the threaded closed tour extended by its second vertex with a window
of three vertices, emitting one coverage per window that is full exactly
when the centre vertex is mandatory and not yet covered, and the assembled
solution passes `is_feasible_solution` (part two: for every closed threaded
tour with distinct consecutive vertices the function returns a solution and
that solution is feasible, so the final assert never fires). -/
theorem compute_heuristic_solution_claims :
    (∀ (mv : List Nat) (mand : Nat → Bool) (et : List Nat),
      mv.length < 2 → computeHeuristicSolution mv mand et = none) ∧
    (∀ (mv : List Nat) (mand : Nat → Bool) (v0 v1 : Nat) (rest : List Nat),
      2 ≤ mv.length →
      (∀ k, k + 1 < (v0 :: v1 :: rest).length →
        (v0 :: v1 :: rest).getD k 0 ≠ (v0 :: v1 :: rest).getD (k + 1) 0) →
      (v0 :: v1 :: rest).getD ((v0 :: v1 :: rest).length - 1) 0 = v0 →
      rest ≠ [] →
      ∃ sol, computeHeuristicSolution mv mand (v0 :: v1 :: rest) = some sol ∧
        is_feasible_solution sol = true) := by
  constructor
  · intro mv mand et h
    rw [computeHeuristicSolution.eq_def, if_pos h]
  · intro mv mand v0 v1 rest hmv hdist hclose hne
    have hlen3 : 3 ≤ (v0 :: v1 :: rest).length := by
      match rest, hne with
      | r :: rs, _ => simp
    have hclose2 : (v0 :: v1 :: rest).getD ((v0 :: v1 :: rest).length - 1) 0 =
        (v0 :: v1 :: rest).getD 0 0 := hclose
    have hdistE := extended_tour_distinct (v0 :: v1 :: rest) hlen3 hdist hclose2
    obtain ⟨sol, hsol, hslen, hsget⟩ := windowLoop_spec mand
      ((v0 :: v1 :: rest) ++ [(v0 :: v1 :: rest).getD 1 0]) [] hdistE
    have hslen2 : sol.length + 2 =
        ((v0 :: v1 :: rest) ++ [(v0 :: v1 :: rest).getD 1 0]).length := by
      rw [hslen]
      simp only [List.length_append, List.length_cons, List.length_nil]
      omega
    have hfeas := window_output_feasible (v0 :: v1 :: rest) hlen3 hdist hclose2
      sol hslen2 hsget
    refine ⟨sol, ?_, hfeas⟩
    rw [computeHeuristicSolution.eq_def, if_neg (by omega)]
    show (match windowLoop mand [] ((v0 :: v1 :: rest) ++ [v1]) with
      | none => none
      | some s => if is_feasible_solution s then some s else none) = some sol
    rw [show ([v1] : List Nat) = [(v0 :: v1 :: rest).getD 1 0] from rfl, hsol]
    show (if is_feasible_solution sol = true then some sol else none) = some sol
    rw [if_pos hfeas]

/-- Witness for C10 at concrete inputs: no mandatory vertices gives `none`;
two mandatory vertices and the closed tour `[0, 1, 0]` give a solution. -/
theorem compute_heuristic_solution_claims_witness :
    computeHeuristicSolution [] (fun v => v == 0) [0, 1, 0] = none ∧
    (computeHeuristicSolution [5, 7] (fun v => v == 0) [0, 1, 0]).isSome = true := by
  constructor
  · exact compute_heuristic_solution_claims.1 [] (fun v => v == 0) [0, 1, 0]
      (by decide)
  · obtain ⟨sol, hs, -⟩ := compute_heuristic_solution_claims.2 [5, 7]
      (fun v => v == 0) 0 1 [0] (by decide)
      (by
        intro k hk
        have h2 : k < 2 := by
          simp at hk
          omega
        interval_cases k <;> decide)
      (by decide) (by decide)
    rw [hs]
    rfl

end PuzzleTour
